import Mathlib

/-!
Verification of the voxel-engine core: per-chunk block storage, the derived
visibility graph, the two chunk-mesh generators (culled and greedy) from
src/render/chunk_meshing.rs, and the DDA raymarcher from src/terrain/chunk.rs.

Machine integers are modelled as `Nat`/`Int` (all quantities stay far below
any overflow boundary: coordinates are < 32, indices < 32768 and vertex
counts are bounded by the number of emitted quads), `f32` values as exact
rationals, with the IEEE infinities that arise from `recip` of a zero ray
direction component modelled by an explicit extended type.  Loops become
structural recursion over the iterated index lists; the `add_face` calls of
the mesh generators are reified as a list of quad events that is then folded
through the faithful `addFace`, which appends the same vertices and indices
in the same order as the source.
-/

/- `Rat.add`/`Rat.mul`/`Rat.sub`/`Rat.inv` are `@[irreducible]` in Batteries,
which blocks `decide` on concrete rational computations; restore the default
reducibility for this development (the kernel ignores the attribute anyway). -/
attribute [local semireducible] Rat.add Rat.mul Rat.sub Rat.inv

namespace Voxel

/-- `CHUNK_SIZE` from src/terrain/chunk.rs. -/
def CHUNK_SIZE : Nat := 32

/-- `CHUNK_SIZE_SQUARED` from src/terrain/chunk.rs. -/
def CHUNK_SIZE_SQUARED : Nat := 32 * 32

/-- `CHUNK_SIZE_CUBED` from src/terrain/chunk.rs. -/
def CHUNK_SIZE_CUBED : Nat := 32 * 32 * 32

/-- Modelled from the spec: `BlockFace` is the per-direction face descriptor of
a block type, carrying an opaque texture index (the block model type itself is
not under src/, only its use in the mesh generators). -/
structure BlockFace where
  textureIndex : Nat
deriving DecidableEq, Repr

/-- The six axis-aligned face directions (`face::PosX` .. `face::NegZ` in
src/render/chunk_meshing.rs). -/
inductive Dir
  | posX | posY | posZ | negX | negY | negZ
deriving DecidableEq, Repr

/-- `OPPOSITE_FACE_INDEX` of each direction. -/
def Dir.opposite : Dir → Dir
  | .posX => .negX
  | .posY => .negY
  | .posZ => .negZ
  | .negX => .posX
  | .negY => .posY
  | .negZ => .posZ

/-- The `NEGATIVE` constant of each direction. -/
def Dir.negative : Dir → Bool
  | .posX => false
  | .posY => false
  | .posZ => false
  | .negX => true
  | .negY => true
  | .negZ => true

/-- An unsigned 3-vector (glam `UVec3` restricted to the chunk-local uses). -/
structure NVec3 where
  x : Nat
  y : Nat
  z : Nat
deriving DecidableEq, Repr

/-- A signed integer 3-vector (glam `IVec3`). -/
structure IVec3 where
  x : Int
  y : Int
  z : Int
deriving DecidableEq, Repr

/-- A rational 3-vector standing for glam `Vec3` (exact model of `f32`). -/
structure QVec3 where
  x : ℚ
  y : ℚ
  z : ℚ
deriving DecidableEq, Repr

instance : Add QVec3 := ⟨fun a b => ⟨a.x + b.x, a.y + b.y, a.z + b.z⟩⟩

theorem QVec3_add_def (a b : QVec3) :
    a + b = ⟨a.x + b.x, a.y + b.y, a.z + b.z⟩ := rfl

def NVec3.toQ (v : NVec3) : QVec3 := ⟨(v.x : ℚ), (v.y : ℚ), (v.z : ℚ)⟩

def IVec3.ofN (v : NVec3) : IVec3 := ⟨(v.x : ℤ), (v.y : ℤ), (v.z : ℤ)⟩

/-- `rotate_uvec3` of each `FaceDir`: the swizzle taking a
(tangent-U, tangent-V, depth) triple to absolute (x,y,z) coordinates
(`v.zyx()` for ±X, `v.yzx()` for ±Y, identity for ±Z). -/
def Dir.rotate (d : Dir) (v : NVec3) : NVec3 :=
  match d with
  | .posX => ⟨v.z, v.y, v.x⟩
  | .negX => ⟨v.z, v.y, v.x⟩
  | .posY => ⟨v.y, v.z, v.x⟩
  | .negY => ⟨v.y, v.z, v.x⟩
  | .posZ => v
  | .negZ => v

/-- `uvec3_to_chunk_index` from src/render/chunk_meshing.rs:
`(CHUNK_SIZE² ) * z + CHUNK_SIZE * y + x`. -/
def uvec3_to_chunk_index (pos : NVec3) : Nat :=
  (32 * 32) * pos.z + 32 * pos.y + pos.x

/-- Modelled from the spec: the block registry (`BLOCKS[id].model.face(d)` in
the source; the registry itself is an external collaborator, spec §6:
`face_of(block_id, direction) -> Option<BlockFace>`), passed explicitly. -/
abbrev Registry := Nat → Dir → Option BlockFace

/-- Modelled from the spec: the chunk block array, a linearly indexed
container of 32768 block ids addressed through `uvec3_to_chunk_index`
(`ChunkBlockStorage` is not under src/).  Block id 0 is air. -/
abbrev Blocks := Nat → Nat

/-- Face descriptor of the block at position `p` in direction `d`. -/
def faceAt (R : Registry) (blocks : Blocks) (p : NVec3) (d : Dir) : Option BlockFace :=
  R (blocks (uvec3_to_chunk_index p)) d

/-- `ChunkMeshInput` from src/render/chunk_meshing.rs. -/
structure ChunkMeshInput where
  blocks : Blocks
  translation : QVec3

/-- `ChunkVertex` from src/render/chunk_meshing.rs (position, uv, texture). -/
structure ChunkVertex where
  position : QVec3
  uv : ℚ × ℚ
  textureIndex : Nat
deriving DecidableEq, Repr

/-- `MeshData` (vertex list and triangle index list). -/
structure MeshData where
  vertices : List ChunkVertex
  indices : List Nat
deriving DecidableEq, Repr

/-- `MeshData::empty`. -/
def MeshData.empty : MeshData := ⟨[], []⟩

/-- One `add_face` call of the source, reified: face direction, face-local
coordinates (tangent-U, tangent-V, depth layer) of the cell with the smallest
coordinates, the size (w along U, h along V) and the texture index. -/
structure Quad where
  dir : Dir
  u : Nat
  v : Nat
  layer : Nat
  w : Nat
  h : Nat
  texture : Nat
deriving DecidableEq, Repr

/-- Absolute chunk coordinates of a quad's origin cell. -/
def Quad.pos (q : Quad) : NVec3 := q.dir.rotate ⟨q.u, q.v, q.layer⟩

/-- `FaceDir::vertices(size)` of each direction: the four corner offsets of a
face of size `(sx, sy)`, in the source's winding order. -/
def Dir.vertexOffsets (d : Dir) (sx sy : ℚ) : List QVec3 :=
  match d with
  | .posX => [⟨1, 0, sx⟩, ⟨1, 0, 0⟩, ⟨1, sy, 0⟩, ⟨1, sy, sx⟩]
  | .posY => [⟨0, 1, 0⟩, ⟨0, 1, sx⟩, ⟨sy, 1, sx⟩, ⟨sy, 1, 0⟩]
  | .posZ => [⟨0, 0, 1⟩, ⟨sx, 0, 1⟩, ⟨sx, sy, 1⟩, ⟨0, sy, 1⟩]
  | .negX => [⟨0, 0, 0⟩, ⟨0, 0, sx⟩, ⟨0, sy, sx⟩, ⟨0, sy, 0⟩]
  | .negY => [⟨sy, 0, 0⟩, ⟨sy, 0, sx⟩, ⟨0, 0, sx⟩, ⟨0, 0, 0⟩]
  | .negZ => [⟨sx, 0, 0⟩, ⟨0, 0, 0⟩, ⟨0, sy, 0⟩, ⟨sx, sy, 0⟩]

/-- `add_face` from src/render/chunk_meshing.rs: appends 4 vertices (corner
offsets added to the translated origin, uvs `[[0,h],[w,h],[w,0],[0,0]]`) and
the 6 indices `[0,1,2,2,3,0]` offset by the vertex count at emission time. -/
def addFace (translation : QVec3) (m : MeshData) (q : Quad) : MeshData :=
  let sx : ℚ := (q.w : ℚ)
  let sy : ℚ := (q.h : ℚ)
  let origin : QVec3 := q.pos.toQ + translation
  let uvs : List (ℚ × ℚ) := [(0, sy), (sx, sy), (sx, 0), (0, 0)]
  let firstIndex := m.vertices.length
  { vertices := m.vertices ++
      (List.zip (q.dir.vertexOffsets sx sy) uvs).map
        (fun ov => ⟨origin + ov.1, ov.2, q.texture⟩),
    indices := m.indices ++ [0, 1, 2, 2, 3, 0].map (· + firstIndex) }

/-- Position of the layer with index `i`, iterating backwards through the
chunk with respect to the face direction (`if NEGATIVE { i } else { 31 - i }`). -/
def layerPos (d : Dir) (i : Nat) : Nat :=
  if d.negative then i else 31 - i

/-- The depth loop of `add_visible_faces` over one (u,v) column: walks the
remaining depth indices carrying the visibility flag; emits a unit quad when
the block has a face in direction `d` and the flag is set, then updates the
flag to whether the block has no face in the opposite direction. -/
def culledColumnGo (R : Registry) (blocks : Blocks) (d : Dir) (u v : Nat) :
    List Nat → Bool → List Quad
  | [], _ => []
  | i :: rest, visible =>
    let lp := layerPos d i
    let pos := d.rotate ⟨u, v, lp⟩
    let id := blocks (uvec3_to_chunk_index pos)
    (match R id d with
      | some f => if visible then [⟨d, u, v, lp, 1, 1, f.textureIndex⟩] else []
      | none => []) ++
      culledColumnGo R blocks d u v rest ((R id d.opposite).isNone)

/-- `add_visible_faces` for one face direction, reified as its quad events:
the two parallel coordinates sweep 32×32 positions, the perpendicular
coordinate sweeps the 32 layers starting from visibility `true`. -/
def add_visible_faces (R : Registry) (blocks : Blocks) (d : Dir) : List Quad :=
  (List.range 32).flatMap fun px =>
    (List.range 32).flatMap fun py =>
      culledColumnGo R blocks d px py (List.range 32) true

/-- The six directions in the order `mesh_culled`/`mesh_greedy` process them. -/
def dirOrder : List Dir := [.posX, .posY, .posZ, .negX, .negY, .negZ]

/-- All quad events of `mesh_culled`, in emission order. -/
def culledEvents (R : Registry) (blocks : Blocks) : List Quad :=
  dirOrder.flatMap (add_visible_faces R blocks)

/-- `mesh_culled` from src/render/chunk_meshing.rs: folds its `add_face`
calls (in emission order) over the empty mesh. -/
def mesh_culled (R : Registry) (input : ChunkMeshInput) : MeshData :=
  (culledEvents R input.blocks).foldl (addFace input.translation) MeshData.empty

/-! ### Greedy meshing (`add_greedy_merged_faces`)

The `visible[CHUNK_SIZE_SQUARED]` and `already_merged[CHUNK_SIZE_SQUARED]`
arrays become functions from the layer-linear index `32*v + u` to `Bool`,
updated pointwise. -/

/-- A boolean array indexed by the in-layer linear index `32*v + u`. -/
abbrev LayerArr := Nat → Bool

/-- Pointwise array write. -/
def upd (a : LayerArr) (i : Nat) (b : Bool) : LayerArr :=
  fun j => if j = i then b else a j

/-- `can_merge_faces`: the two face descriptors must compare equal. -/
def can_merge_faces (first second : Option BlockFace) : Bool :=
  first == second

/-- `consider_merge_candidate`: whether the original face can merge with the
face at `(cu, cv)` in the layer at `lp`, and whether the block with the same
U,V in the following layer is visible. -/
def consider_merge_candidate (R : Registry) (blocks : Blocks) (d : Dir)
    (visible : LayerArr) (lp : Nat) (originalFace : BlockFace)
    (cu cv : Nat) : Bool × Bool :=
  let pos := d.rotate ⟨cu, cv, lp⟩
  let idxInLayer := 32 * cv + cu
  let id := blocks (uvec3_to_chunk_index pos)
  let face := R id d
  let canMerge := can_merge_faces (some originalFace) face && visible idxInLayer
  let nextVisible := (R id d.opposite).isNone
  (canMerge, nextVisible)

/-- The U-direction march: extends the run while the candidate merges,
marking each merged cell and propagating its next-layer visibility; stops at
the first candidate that cannot merge.  Returns the final width and the
updated `visible` and `already_merged` arrays. -/
def growU (R : Registry) (blocks : Blocks) (d : Dir) (lp : Nat)
    (originalFace : BlockFace) (v : Nat) :
    List Nat → LayerArr → LayerArr → Nat → Nat × LayerArr × LayerArr
  | [], visible, merged, w => (w, visible, merged)
  | cu :: rest, visible, merged, w =>
    let c := consider_merge_candidate R blocks d visible lp originalFace cu v
    if c.1 then
      let i := 32 * v + cu
      growU R blocks d lp originalFace v rest (upd visible i c.2) (upd merged i true) (w + 1)
    else
      (w, visible, merged)

/-- The inner U check of the V-direction march: every position across the
current width must merge, or the whole row (and the V march) fails; collects
the next-layer visibility of each candidate (source: `visibility_flags`). -/
def rowCheck (R : Registry) (blocks : Blocks) (d : Dir) (lp : Nat)
    (originalFace : BlockFace) (cv : Nat) (visible : LayerArr) :
    List Nat → Option (List (Nat × Bool))
  | [] => some []
  | cu :: rest =>
    let c := consider_merge_candidate R blocks d visible lp originalFace cu cv
    if c.1 then
      (rowCheck R blocks d lp originalFace cv visible rest).map ((cu, c.2) :: ·)
    else
      none

/-- The V-direction march: for each candidate row, checks the entire width
band; on success marks the row merged, writes each cell's next-layer
visibility and grows the height, otherwise stops (the source's `break 'v`). -/
def growV (R : Registry) (blocks : Blocks) (d : Dir) (lp : Nat)
    (originalFace : BlockFace) (u w : Nat) :
    List Nat → LayerArr → LayerArr → Nat → Nat × LayerArr × LayerArr
  | [], visible, merged, h => (h, visible, merged)
  | cv :: rows, visible, merged, h =>
    match rowCheck R blocks d lp originalFace cv visible (List.range' u w) with
    | none => (h, visible, merged)
    | some flags =>
      let visible' := flags.foldl (fun a p => upd a (32 * cv + p.1) p.2) visible
      let merged' := (List.range' u w).foldl (fun a cu => upd a (32 * cv + cu) true) merged
      growV R blocks d lp originalFace u w rows visible' merged' (h + 1)

/-- State threaded through one layer of `add_greedy_merged_faces`. -/
structure GreedyState where
  visible : LayerArr
  merged : LayerArr
  events : List Quad

/-- The body of the greedy per-block loop at position `(u, v)` of the layer at
`lp`: skips already-merged cells; otherwise updates the next-layer visibility
of the cell, and if the cell has a visible face, marches in U then in V and
emits the merged quad. -/
def greedyCell (R : Registry) (blocks : Blocks) (d : Dir) (lp : Nat)
    (v u : Nat) (s : GreedyState) : GreedyState :=
  let idx := 32 * v + u
  if s.merged idx then s
  else
    let pos := d.rotate ⟨u, v, lp⟩
    let id := blocks (uvec3_to_chunk_index pos)
    let face := R id d
    let originalVisible := s.visible idx
    let visible1 := upd s.visible idx ((R id d.opposite).isNone)
    match face with
    | none => { s with visible := visible1 }
    | some f =>
      if !originalVisible then { s with visible := visible1 }
      else
        let ru := growU R blocks d lp f v (List.range' (u + 1) (31 - u)) visible1 s.merged 1
        let rv := growV R blocks d lp f u ru.1 (List.range' (v + 1) (31 - v)) ru.2.1 ru.2.2 1
        { visible := rv.2.1, merged := rv.2.2,
          events := s.events ++ [⟨d, u, v, lp, ru.1, rv.1, f.textureIndex⟩] }

/-- The in-layer iteration order: `v` outer, `u` inner. -/
def layerCells : List (Nat × Nat) :=
  (List.range 32).flatMap fun v => (List.range 32).map fun u => (v, u)

/-- One layer of `add_greedy_merged_faces`: resets `already_merged`, sweeps
all cells in row-major order, and returns the carried-over visibility array
together with the accumulated events. -/
def greedyLayer (R : Registry) (blocks : Blocks) (d : Dir) (li : Nat)
    (visible : LayerArr) (events : List Quad) : LayerArr × List Quad :=
  let lp := layerPos d li
  let s := layerCells.foldl (fun s vu => greedyCell R blocks d lp vu.1 vu.2 s)
    ⟨visible, fun _ => false, events⟩
  (s.visible, s.events)

/-- `add_greedy_merged_faces` for one face direction, reified as its quad
events: iterates the 32 layers far-to-near, carrying the visibility array
(initially all `true`). -/
def add_greedy_merged_faces (R : Registry) (blocks : Blocks) (d : Dir) : List Quad :=
  ((List.range 32).foldl (fun p li => greedyLayer R blocks d li p.1 p.2)
    (fun _ => true, [])).2

/-- All quad events of `mesh_greedy`, in emission order. -/
def greedyEvents (R : Registry) (blocks : Blocks) : List Quad :=
  dirOrder.flatMap (add_greedy_merged_faces R blocks)

/-- `mesh_greedy` from src/render/chunk_meshing.rs. -/
def mesh_greedy (R : Registry) (input : ChunkMeshInput) : MeshData :=
  (greedyEvents R input.blocks).foldl (addFace input.translation) MeshData.empty

/-! ### Visibility graph and chunks (src/terrain/chunk.rs) -/

/-- Modelled from the spec: whether the chunk's boundary plane facing
direction `d` is fully opaque — every voxel on that plane has a face present
in direction `d` (spec §4.2; `VisibilityGraph::compute` is not under src/). -/
def boundaryOpaque (R : Registry) (blocks : Blocks) (d : Dir) : Bool :=
  (List.range 32).all fun u =>
    (List.range 32).all fun v =>
      (faceAt R blocks (d.rotate ⟨u, v, if d.negative then 0 else 31⟩) d).isSome

/-- Modelled from the spec: `VisibilityGraph`, six booleans, one per face
direction (spec §3). -/
structure VisibilityGraph where
  posX : Bool
  posY : Bool
  posZ : Bool
  negX : Bool
  negY : Bool
  negZ : Bool
deriving DecidableEq, Repr

/-- Modelled from the spec: `VisibilityGraph::compute(blocks)`, a pure
function of the block array (spec §4.2). -/
def VisibilityGraph.compute (R : Registry) (blocks : Blocks) : VisibilityGraph :=
  ⟨boundaryOpaque R blocks .posX, boundaryOpaque R blocks .posY,
   boundaryOpaque R blocks .posZ, boundaryOpaque R blocks .negX,
   boundaryOpaque R blocks .negY, boundaryOpaque R blocks .negZ⟩

/-- `Chunk` from src/terrain/chunk.rs: position, block storage, and the
derived visibility graph. -/
structure Chunk where
  pos : IVec3
  blocks : Blocks
  visibility_graph : VisibilityGraph

/-- `Chunk::new`: stores the blocks and computes the visibility graph. -/
def Chunk.new (R : Registry) (pos : IVec3) (blocks : Blocks) : Chunk :=
  ⟨pos, blocks, VisibilityGraph.compute R blocks⟩

/-- `Chunk::get_block` (through `ChunkBlockStorage::get_block`, modelled from
the spec's index formula `x + 32*y + 32²*z`). -/
def Chunk.get_block (c : Chunk) (p : NVec3) : Nat :=
  c.blocks (uvec3_to_chunk_index p)

/-- `Chunk::set_block`: delegates to the storage; the stored visibility graph
is left untouched (src/terrain/chunk.rs lines 60-62). -/
def Chunk.set_block (c : Chunk) (p : NVec3) (newId : Nat) : Chunk :=
  { c with blocks := fun j => if j = uvec3_to_chunk_index p then newId else c.blocks j }

/-! ### Raymarching (src/terrain/chunk.rs, `Chunk::raymarch`)

`f32` values are modelled as exact rationals.  The only place IEEE special
values arise on the raymarcher's data is `ray_direction.recip()` on a zero
component (giving `+inf`, since the model has a single zero, the positive
one) and the products and min/max folds over the resulting deltas; `FExt`
models those values and the IEEE `min`/`max` semantics of `f32`. -/

/-- An `f32` value that may be an infinity or NaN, over the exact rationals. -/
inductive FExt
  | fin (q : ℚ)
  | inf
  | ninf
  | nan
deriving DecidableEq, Repr

/-- IEEE `f32::min` (as used by `Vec3::min_element`): when one operand is
NaN the other is returned; `-inf` dominates; `+inf` yields the other. -/
def fmin : FExt → FExt → FExt
  | .nan, b => b
  | a, .nan => a
  | .ninf, _ => .ninf
  | _, .ninf => .ninf
  | .inf, b => b
  | a, .inf => a
  | .fin a, .fin b => .fin (min a b)

/-- IEEE `f32::max` against a finite argument. -/
def fmax : FExt → ℚ → FExt
  | .nan, b => .fin b
  | .inf, _ => .inf
  | .ninf, b => .fin b
  | .fin a, b => .fin (max a b)

/-- Product of a finite value with a possibly-infinite one (IEEE rules;
`0 * ±inf = NaN`). -/
def fmulF (a : ℚ) : FExt → FExt
  | .fin q => .fin (a * q)
  | .inf => if 0 < a then .inf else if a < 0 then .ninf else .nan
  | .ninf => if 0 < a then .ninf else if a < 0 then .inf else .nan
  | .nan => .nan

/-- `f32::recip` of an exact value: `1/0 = +inf` (the model's zero is +0). -/
def recipQ (c : ℚ) : FExt :=
  if c = 0 then .inf else .fin c⁻¹

/-- `EPS` from `Chunk::raymarch`. -/
def EPS : ℚ := 1 / 1000

/-- One component of `dir_step`: `1.0` when the direction component is
`>= 0.0`, else `0.0`. -/
def dirStep (c : ℚ) : ℚ := if 0 ≤ c then 1 else 0

/-- `fract_gl`: `x - x.floor()`. -/
def fractGl (q : ℚ) : ℚ := q - ⌊q⌋

/-- One component of `deltas = (dir_step - ray_pos.fract_gl()) * dir_recip`. -/
def deltaComp (p c : ℚ) : FExt := fmulF (dirStep c - fractGl p) (recipQ c)

/-- `deltas.min_element().max(EPS)` for the three components. -/
def stepSize (rayPos dvec : QVec3) : FExt :=
  fmax (fmin (deltaComp rayPos.x dvec.x)
    (fmin (deltaComp rayPos.y dvec.y) (deltaComp rayPos.z dvec.z))) EPS

/-- The new running distance after one step.  `stepSize` is either finite
(at least `EPS`, because of the `max(EPS)` clamp) or `+inf`; in the infinite
case `f32` sets `t` to `+inf` and the loop exits — modelled by jumping `t`
to `max maxD (t + EPS)`, which exits the loop identically.

Exactness caveat: the source accumulates `t` in `f32` (`t += ...`), where a
step below half an ulp of `t` is absorbed entirely — for `t ≥ 2^15` the
`f32` spacing is `2^-8`, more than twice `EPS = 1e-3`, so `t + EPS` rounds
back to `t`.  The exact-rational addition here therefore overstates the
forward progress of the source, and progress or termination facts proved of
this model do not transfer to the program: see `c8_stall_step_is_eps` for a
reachable input on which the source loop stalls forever.  The model is still
faithful whenever the result is decided without relying on many accumulated
steps (first-iteration exits, and any hit or out-of-bounds exit the model
reaches before absorption could matter). -/
def advanceT (maxD t : ℚ) (s : FExt) : ℚ :=
  match s with
  | .fin r => t + r
  | _ => max maxD (t + EPS)

instance : Sub IVec3 := ⟨fun a b => ⟨a.x - b.x, a.y - b.y, a.z - b.z⟩⟩

theorem IVec3.sub_def (a b : IVec3) :
    a - b = ⟨a.x - b.x, a.y - b.y, a.z - b.z⟩ := rfl

/-- `LocalBlockPosition::from(block_pos.as_uvec3())` (the components are
non-negative whenever the bounds check has passed). -/
def IVec3.toN (v : IVec3) : NVec3 := ⟨v.x.toNat, v.y.toNat, v.z.toNat⟩

/-- Modelled from the spec: `Size3::splat(32).contains_ivec3`, the bounds
check against `[0, 32)` per axis. -/
def containsIVec3 (v : IVec3) : Bool :=
  0 ≤ v.x && v.x < 32 && 0 ≤ v.y && v.y < 32 && 0 ≤ v.z && v.z < 32

/-- `ChunkHit` from src/terrain/chunk.rs. -/
structure ChunkHit where
  local_hit_pos : IVec3
  hit_normal : Option IVec3
deriving DecidableEq, Repr

/-- The `while t < maximum_distance` loop of `Chunk::raymarch`, with an
explicit fuel parameter; `none` means the fuel ran out (shown below never to
happen for the fuel `raymarchFuel`), `some r` is the loop's result. -/
def raymarchGo (c : Chunk) (rayOrigin rayDirection : QVec3)
    (previousChunkPos : Option IVec3) (maximumDistance : ℚ) :
    Nat → ℚ → Option IVec3 → Option (Option ChunkHit)
  | 0, _, _ => none
  | n + 1, t, previousBlockPos =>
    if t < maximumDistance then
      let rayPos : QVec3 := ⟨rayOrigin.x + rayDirection.x * t,
        rayOrigin.y + rayDirection.y * t, rayOrigin.z + rayDirection.z * t⟩
      let blockPos : IVec3 := ⟨⌊rayPos.x⌋, ⌊rayPos.y⌋, ⌊rayPos.z⌋⟩
      if containsIVec3 blockPos then
        if c.get_block blockPos.toN ≠ 0 then
          some (some ⟨blockPos,
            (previousBlockPos.map (· - blockPos)).orElse
              (fun _ => previousChunkPos.map (· - c.pos))⟩)
        else
          raymarchGo c rayOrigin rayDirection previousChunkPos maximumDistance
            n (advanceT maximumDistance t (stepSize rayPos rayDirection))
            (some blockPos)
      else
        some none
    else
      some none

/-- Fuel sufficient for the raymarch loop: one more than
`⌈maximum_distance / EPS⌉`. -/
def raymarchFuel (maximumDistance : ℚ) : Nat :=
  (⌈maximumDistance / EPS⌉).toNat + 1

/-- `Chunk::raymarch`: the loop started at `t = 0` with no previous block. -/
def Chunk.raymarch (c : Chunk) (rayOrigin rayDirection : QVec3)
    (previousChunkPos : Option IVec3) (maximumDistance : ℚ) : Option ChunkHit :=
  (raymarchGo c rayOrigin rayDirection previousChunkPos maximumDistance
    (raymarchFuel maximumDistance) 0 none).getD none

/-! ## Mesh buffer structure

Every `add_face` call appends exactly 4 vertices and the 6 indices
`[0,1,2,2,3,0]` offset by the vertex count at emission time, so a mesh built
from `n` quads carries `4n` vertices and the fixed index pattern below. -/

/-- The 6 indices the `k`-th emitted quad contributes. -/
def quadIndices (k : Nat) : List Nat :=
  [4 * k, 4 * k + 1, 4 * k + 2, 4 * k + 2, 4 * k + 3, 4 * k]

/-- The index buffer of a mesh of `n` quads. -/
def quadIndexPattern (n : Nat) : List Nat :=
  (List.range n).flatMap quadIndices

theorem Dir.vertexOffsets_length (d : Dir) (sx sy : ℚ) :
    (d.vertexOffsets sx sy).length = 4 := by
  cases d <;> rfl

theorem addFace_vertices_length (t : QVec3) (m : MeshData) (q : Quad) :
    (addFace t m q).vertices.length = m.vertices.length + 4 := by
  cases q with
  | mk d u v layer w h tex => cases d <;>
      simp [addFace, Dir.vertexOffsets, List.zip]

theorem addFace_indices (t : QVec3) (m : MeshData) (q : Quad) :
    (addFace t m q).indices =
      m.indices ++ [0, 1, 2, 2, 3, 0].map (· + m.vertices.length) := rfl

theorem quadIndexPattern_succ (n : Nat) :
    quadIndexPattern (n + 1) = quadIndexPattern n ++ quadIndices n := by
  simp [quadIndexPattern, List.range_succ]

/-- The mesh fold: starting from a mesh of `a` quads, folding `addFace` over
`evs` yields `a + evs.length` quads with the canonical index pattern. -/
theorem foldl_addFace_spec (t : QVec3) (evs : List Quad) (m : MeshData) (a : Nat)
    (hv : m.vertices.length = 4 * a) (hi : m.indices = quadIndexPattern a) :
    (evs.foldl (addFace t) m).vertices.length = 4 * (a + evs.length) ∧
      (evs.foldl (addFace t) m).indices = quadIndexPattern (a + evs.length) := by
  induction evs generalizing m a with
  | nil => simpa using ⟨hv, hi⟩
  | cons q rest ih =>
    have hv' : (addFace t m q).vertices.length = 4 * (a + 1) := by
      rw [addFace_vertices_length, hv]; ring
    have hi' : (addFace t m q).indices = quadIndexPattern (a + 1) := by
      rw [addFace_indices, hi, hv, quadIndexPattern_succ]
      simp [quadIndices]
      omega
    have := ih (addFace t m q) (a + 1) hv' hi'
    simpa [Nat.add_assoc, Nat.add_comm, Nat.add_left_comm] using this

theorem mesh_culled_vertices_length (R : Registry) (input : ChunkMeshInput) :
    (mesh_culled R input).vertices.length = 4 * (culledEvents R input.blocks).length := by
  simpa [mesh_culled] using (foldl_addFace_spec input.translation
    (culledEvents R input.blocks) MeshData.empty 0 rfl rfl).1

theorem mesh_culled_indices (R : Registry) (input : ChunkMeshInput) :
    (mesh_culled R input).indices = quadIndexPattern (culledEvents R input.blocks).length := by
  simpa [mesh_culled] using (foldl_addFace_spec input.translation
    (culledEvents R input.blocks) MeshData.empty 0 rfl rfl).2

theorem mesh_greedy_vertices_length (R : Registry) (input : ChunkMeshInput) :
    (mesh_greedy R input).vertices.length = 4 * (greedyEvents R input.blocks).length := by
  simpa [mesh_greedy] using (foldl_addFace_spec input.translation
    (greedyEvents R input.blocks) MeshData.empty 0 rfl rfl).1

theorem mesh_greedy_indices (R : Registry) (input : ChunkMeshInput) :
    (mesh_greedy R input).indices = quadIndexPattern (greedyEvents R input.blocks).length := by
  simpa [mesh_greedy] using (foldl_addFace_spec input.translation
    (greedyEvents R input.blocks) MeshData.empty 0 rfl rfl).2

theorem quadIndexPattern_length (n : Nat) : (quadIndexPattern n).length = 6 * n := by
  induction n with
  | zero => rfl
  | succ k ih => rw [quadIndexPattern_succ]; simp [quadIndices] at ih ⊢; omega

theorem quadIndexPattern_group (n k : Nat) (hk : k < n) :
    ((quadIndexPattern n).drop (6 * k)).take 6 = quadIndices k := by
  induction n with
  | zero => omega
  | succ m ih =>
    rw [quadIndexPattern_succ]
    rcases Nat.lt_or_ge k m with h | h
    · rw [List.drop_append_of_le_length, List.take_append_of_le_length]
      · exact ih h
      · have h1 := quadIndexPattern_length m
        have : ((quadIndexPattern m).drop (6 * k)).length = 6 * m - 6 * k := by
          simp [h1]
        omega
      · have := quadIndexPattern_length m
        omega
    · have hkm : k = m := by omega
      subst hkm
      rw [← quadIndexPattern_length k, List.drop_left]
      simp [quadIndices]

theorem quadIndexPattern_mem_lt (n i : Nat) (hi : i ∈ quadIndexPattern n) : i < 4 * n := by
  simp only [quadIndexPattern, List.mem_flatMap, List.mem_range] at hi
  obtain ⟨k, hk, hik⟩ := hi
  simp [quadIndices] at hik
  omega

/-- Buffer well-formedness of a mesh of quads: `4n` vertices, `6n` indices,
the `k`-th group of 6 indices is `[4k, 4k+1, 4k+2, 4k+2, 4k+3, 4k]` (so each
group references only the 4 vertices of its own quad), and every index is
below the vertex count. -/
def bufferWF (m : MeshData) : Prop :=
  ∃ n, m.vertices.length = 4 * n ∧ m.indices.length = 6 * n ∧
    (∀ k, k < n → ((m.indices.drop (6 * k)).take 6 = quadIndices k)) ∧
    ∀ i, i ∈ m.indices → i < m.vertices.length

theorem bufferWF_of_pattern (m : MeshData) (n : Nat)
    (hv : m.vertices.length = 4 * n) (hi : m.indices = quadIndexPattern n) :
    bufferWF m := by
  refine ⟨n, hv, ?_, ?_, ?_⟩
  · rw [hi, quadIndexPattern_length]
  · intro k hk; rw [hi]; exact quadIndexPattern_group n k hk
  · intro i him; rw [hv]; exact quadIndexPattern_mem_lt n i (hi ▸ him)

/-! ## Raymarch lemmas -/

/-- The clamped step is either `+inf` or a finite value of at least `e`. -/
theorem fmax_cases (x : FExt) (e : ℚ) :
    fmax x e = .inf ∨ ∃ r, fmax x e = .fin r ∧ e ≤ r := by
  cases x with
  | fin a => exact Or.inr ⟨max a e, rfl, le_max_right a e⟩
  | inf => exact Or.inl rfl
  | ninf => exact Or.inr ⟨e, rfl, le_refl e⟩
  | nan => exact Or.inr ⟨e, rfl, le_refl e⟩

theorem stepSize_cases (p v : QVec3) :
    stepSize p v = .inf ∨ ∃ r, stepSize p v = .fin r ∧ EPS ≤ r :=
  fmax_cases _ _

/-- Forward progress: every loop iteration advances `t` by at least `EPS`. -/
theorem advanceT_ge (maxD t : ℚ) (p v : QVec3) :
    t + EPS ≤ advanceT maxD t (stepSize p v) := by
  rcases stepSize_cases p v with h | ⟨r, h, hr⟩
  · rw [h]; exact le_max_right _ _
  · rw [h]; exact add_le_add_left hr t

theorem EPS_pos : (0 : ℚ) < EPS := by norm_num [EPS]

/-- Fuel sufficiency: when the remaining-distance measure is below the fuel,
the loop returns a result rather than running out. -/
theorem raymarchGo_isSome (c : Chunk) (o d : QVec3) (pc : Option IVec3) (maxD : ℚ) :
    ∀ (n : Nat) (t : ℚ) (prev : Option IVec3),
      (⌈(maxD - t) / EPS⌉).toNat < n →
      (raymarchGo c o d pc maxD n t prev).isSome = true := by
  intro n
  induction n with
  | zero => intro t prev h; exact absurd h (Nat.not_lt_zero _)
  | succ k ih =>
    intro t prev h
    rw [raymarchGo]
    split
    · dsimp only
      split
      · split
        · rfl
        · apply ih
          set rayPos : QVec3 := ⟨o.x + d.x * t, o.y + d.y * t, o.z + d.z * t⟩ with hray
          have hstep := advanceT_ge maxD t rayPos d
          set t' := advanceT maxD t (stepSize rayPos d) with ht'
          have ht : t < maxD := by assumption
          have h1 : (0 : ℤ) < ⌈(maxD - t) / EPS⌉ :=
            Int.ceil_pos.mpr (div_pos (sub_pos.2 ht) EPS_pos)
          have h2 : ⌈(maxD - t') / EPS⌉ ≤ ⌈(maxD - t) / EPS⌉ - 1 := by
            have hne : EPS ≠ 0 := ne_of_gt EPS_pos
            have heq : (maxD - (t + EPS)) / EPS = (maxD - t) / EPS - 1 := by
              rw [show maxD - (t + EPS) = (maxD - t) - EPS by ring, sub_div, div_self hne]
            calc ⌈(maxD - t') / EPS⌉ ≤ ⌈(maxD - (t + EPS)) / EPS⌉ := by
                  apply Int.ceil_le_ceil
                  apply div_le_div_of_nonneg_right _ EPS_pos.le
                  · linarith
              _ = ⌈(maxD - t) / EPS⌉ - 1 := by rw [heq, Int.ceil_sub_one]
          omega
      · rfl
    · rfl

/-- The raymarch loop with the fuel `raymarchFuel` always yields a result
in this exact-rational model, so `Chunk.raymarch` never falls back to the
fuel-exhausted default: a fact about the embedding only.  It does not
transfer to the source, whose `f32` accumulation of `t` can absorb the `EPS`
step and loop forever (see `advanceT` and `c8_stall_step_is_eps`). -/
theorem raymarch_terminates (c : Chunk) (o d : QVec3) (pc : Option IVec3) (maxD : ℚ) :
    (raymarchGo c o d pc maxD (raymarchFuel maxD) 0 none).isSome = true := by
  apply raymarchGo_isSome
  rw [raymarchFuel, sub_zero]
  omega

/-- A normal is a unit axis vector: exactly one component is `±1`, the rest 0. -/
def unitAxis (n : IVec3) : Bool :=
  decide (n = ⟨1, 0, 0⟩) || decide (n = ⟨-1, 0, 0⟩) ||
  decide (n = ⟨0, 1, 0⟩) || decide (n = ⟨0, -1, 0⟩) ||
  decide (n = ⟨0, 0, 1⟩) || decide (n = ⟨0, 0, -1⟩)

/-- Invariant behind the amended C7: any normal the raymarcher reports is
either the difference of two distinct in-bounds voxels (the previously
sampled, air, voxel minus the solid hit voxel) or the difference of the
caller's previous chunk position and this chunk's own position. -/
theorem raymarchGo_normal_shape (c : Chunk) (o d : QVec3) (pc : Option IVec3)
    (maxD : ℚ) :
    ∀ (n : Nat) (t : ℚ) (prev : Option IVec3),
      (∀ pb, prev = some pb → containsIVec3 pb = true ∧ c.get_block pb.toN = 0) →
      ∀ (hit : ChunkHit) (nrm : IVec3),
        raymarchGo c o d pc maxD n t prev = some (some hit) →
        hit.hit_normal = some nrm →
        (∃ pb q : IVec3, containsIVec3 pb = true ∧ containsIVec3 q = true ∧
          c.get_block pb.toN = 0 ∧ c.get_block q.toN ≠ 0 ∧ pb ≠ q ∧ nrm = pb - q) ∨
        (∃ p, pc = some p ∧ nrm = p - c.pos) := by
  intro n
  induction n with
  | zero => intro t prev _ hit nrm hrun; exact absurd hrun (by simp [raymarchGo])
  | succ k ih =>
    intro t prev hprev hit nrm hrun hnrm
    rw [raymarchGo] at hrun
    split at hrun
    · dsimp only at hrun
      set rayPos : QVec3 := ⟨o.x + d.x * t, o.y + d.y * t, o.z + d.z * t⟩ with hray
      set blockPos : IVec3 := ⟨⌊rayPos.x⌋, ⌊rayPos.y⌋, ⌊rayPos.z⌋⟩ with hbp
      split at hrun
      · split at hrun
        · -- hit branch
          have hcontains : containsIVec3 blockPos = true := by assumption
          have hsolid : c.get_block blockPos.toN ≠ 0 := by assumption
          have hhit : hit = ⟨blockPos,
              (prev.map (· - blockPos)).orElse (fun _ => pc.map (· - c.pos))⟩ := by
            apply Option.some.inj; apply Option.some.inj; exact hrun.symm
          subst hhit
          simp only at hnrm
          cases hp : prev with
          | some pb =>
            left
            obtain ⟨hin, hair⟩ := hprev pb hp
            refine ⟨pb, blockPos, hin, hcontains, hair, hsolid, ?_, ?_⟩
            · intro hcontra; rw [hcontra] at hair; exact hsolid hair
            · rw [hp] at hnrm
              simpa using hnrm.symm
          | none =>
            right
            rw [hp] at hnrm
            cases hpc : pc with
            | some p =>
              rw [hpc] at hnrm
              exact ⟨p, rfl, by simpa [Option.orElse] using hnrm.symm⟩
            | none => rw [hpc] at hnrm; simp [Option.orElse] at hnrm
        · -- recursive branch
          have hair : ¬ c.get_block blockPos.toN ≠ 0 := by assumption
          refine ih _ _ ?_ hit nrm hrun hnrm
          intro pb hpb
          have : pb = blockPos := by
            apply Option.some.inj; exact hpb.symm
          subst this
          exact ⟨by assumption, not_not.mp hair⟩
      · exact absurd hrun (by simp)
    · exact absurd hrun (by simp)

/-! ## Concrete scenarios used by counterexamples and witnesses -/

/-- A synthetic registry: block 1 carries every face with texture index 7,
block 0 is air (no faces), all other ids have no faces. -/
def sampleRegistry : Registry := fun id _ => if id = 1 then some ⟨7⟩ else none

/-- A chunk whose only non-air voxel is at local (5,5,5). -/
def blocksSingle555 : Blocks := fun i =>
  if i = uvec3_to_chunk_index ⟨5, 5, 5⟩ then 1 else 0

def chunkSingle555 : Chunk := Chunk.new sampleRegistry ⟨0, 0, 0⟩ blocksSingle555

/-- A chunk whose only non-air voxel is at local (1,1,1). -/
def blocksSingle111 : Blocks := fun i =>
  if i = uvec3_to_chunk_index ⟨1, 1, 1⟩ then 1 else 0

def chunkSingle111 : Chunk := Chunk.new sampleRegistry ⟨0, 0, 0⟩ blocksSingle111

/-- A fully solid chunk. -/
def blocksAll1 : Blocks := fun _ => 1

/-- A solid chunk whose (0,0,0) voxel is then mutated to air through
`set_block`. -/
def chunkStale : Chunk :=
  (Chunk.new sampleRegistry ⟨0, 0, 0⟩ blocksAll1).set_block ⟨0, 0, 0⟩ 0

/-! ## C9: rays starting outside the chunk -/

/-- The first loop step returns `none` as soon as the origin's voxel fails
the bounds check, for every chunk (so no block is inspected). -/
theorem raymarch_origin_outside (c : Chunk) (o d : QVec3) (pc : Option IVec3)
    (maxD : ℚ) (h0 : 0 < maxD)
    (hout : containsIVec3 ⟨⌊o.x⌋, ⌊o.y⌋, ⌊o.z⌋⟩ = false) :
    c.raymarch o d pc maxD = none := by
  rw [Chunk.raymarch, raymarchFuel, raymarchGo, if_pos h0]
  dsimp only
  rw [mul_zero, add_zero, mul_zero, add_zero, mul_zero, add_zero, hout]
  rfl

/-- C9: for every block array and every ray with positive `max_distance`
whose origin voxel lies outside `[0,32)³`, `raymarch` returns `None` on the
first step without inspecting any block (the theorem holds for an arbitrary
chunk, so the result does not depend on the stored blocks), even if the ray
would enter the chunk and reach a non-air voxel within `max_distance`.
spec-modelled: the bounds check `Size3::contains_ivec3` and the storage
lookup are modelled from the spec (§4.1, §4.4). -/
theorem c9_origin_outside_no_hit (c : Chunk) (o d : QVec3) (pc : Option IVec3)
    (maxD : ℚ) (h0 : 0 < maxD)
    (hout : containsIVec3 ⟨⌊o.x⌋, ⌊o.y⌋, ⌊o.z⌋⟩ = false) :
    c.raymarch o d pc maxD = none :=
  raymarch_origin_outside c o d pc maxD h0 hout

/-- C9 witness: the ray of the spec's §8 "raymarch hit" scenario starts at
(5,5,-10), outside the chunk, and indeed returns no hit even though the
voxel (5,5,5) is solid and within reach. -/
theorem c9_witness :
    (0 : ℚ) < 100 ∧
      containsIVec3 ⟨⌊(5 : ℚ)⌋, ⌊(5 : ℚ)⌋, ⌊(-10 : ℚ)⌋⟩ = false ∧
      chunkSingle555.raymarch ⟨5, 5, -10⟩ ⟨0, 0, 1⟩ none 100 = none :=
  ⟨by norm_num, by decide,
    c9_origin_outside_no_hit chunkSingle555 ⟨5, 5, -10⟩ ⟨0, 0, 1⟩ none 100
      (by norm_num) (by decide)⟩

/-! ## C5: the §8 raymarch-hit scenario -/

/-- C5 counterexample: with the spec's stated inputs — the single solid voxel
at (5,5,5), ray origin (5,5,-10), direction (0,0,1) and ample
`max_distance` — the code returns no hit at all (the origin voxel is outside
the chunk), not the claimed hit at (5,5,5). -/
theorem c5_counterexample :
    chunkSingle555.raymarch ⟨5, 5, -10⟩ ⟨0, 0, 1⟩ none 100 = none := by decide

/-- C5 (amended): with the spec's inputs the raymarch returns no hit,
because the origin (5,5,-10) lies outside the chunk and §4.4 exits on the
first out-of-bounds sample; moving the ray origin inside the chunk to
(5,5,0), the same ray does hit (5,5,5) with normal (0,0,-1).
spec-modelled: the storage lookup is modelled from the spec (§4.1). -/
theorem c5_amended_raymarch_hit :
    chunkSingle555.raymarch ⟨5, 5, -10⟩ ⟨0, 0, 1⟩ none 100 = none ∧
      chunkSingle555.raymarch ⟨5, 5, 0⟩ ⟨0, 0, 1⟩ none 100 =
        some ⟨⟨5, 5, 5⟩, some ⟨0, 0, -1⟩⟩ := by decide

/-! ## C7: the shape of hit normals -/

theorem containsIVec3_spec (v : IVec3) (h : containsIVec3 v = true) :
    0 ≤ v.x ∧ v.x < 32 ∧ 0 ≤ v.y ∧ v.y < 32 ∧ 0 ≤ v.z ∧ v.z < 32 := by
  simp only [containsIVec3, Bool.and_eq_true, decide_eq_true_eq] at h
  exact ⟨h.1.1.1.1.1, h.1.1.1.1.2, h.1.1.1.2, h.1.1.2, h.1.2, h.2⟩

/-- C7 counterexample: a ray through the corner shared by the air voxel
(0,0,0) and the solid voxel (1,1,1) hits with normal (-1,-1,-1), which is
not a unit axis vector; the claim fails as stated. -/
theorem c7_counterexample :
    chunkSingle111.raymarch ⟨1/5, 1/5, 1/5⟩ ⟨1, 1, 1⟩ none 100 =
        some ⟨⟨1, 1, 1⟩, some ⟨-1, -1, -1⟩⟩ ∧
      unitAxis ⟨-1, -1, -1⟩ = false := by decide

/-- C7 (amended): whenever `raymarch` returns a hit with a normal present
(and the `previous_chunk_pos` argument, when supplied, names an axis-adjacent
chunk), the normal is a nonzero integer vector with components of magnitude
at most 31: it is the difference of the previously sampled (air, in-bounds)
voxel and the solid hit voxel — a unit axis vector when they are
face-adjacent, but possibly diagonal when the march crosses a cell corner or
the `EPS` clamp steps past more than one boundary — or the difference of the
adjacent previous chunk position and this chunk's position.
spec-modelled: the bounds check and storage lookup are modelled from the
spec (§4.1, §4.4). -/
theorem c7_amended_normal_shape (c : Chunk) (o d : QVec3) (pc : Option IVec3)
    (maxD : ℚ) (hadj : ∀ p, pc = some p → unitAxis (p - c.pos) = true)
    (hit : ChunkHit) (nrm : IVec3)
    (hrun : c.raymarch o d pc maxD = some hit)
    (hnrm : hit.hit_normal = some nrm) :
    nrm ≠ ⟨0, 0, 0⟩ ∧ nrm.x.natAbs ≤ 31 ∧ nrm.y.natAbs ≤ 31 ∧ nrm.z.natAbs ≤ 31 := by
  have hgo : raymarchGo c o d pc maxD (raymarchFuel maxD) 0 none = some (some hit) := by
    rcases hval : raymarchGo c o d pc maxD (raymarchFuel maxD) 0 none with _ | r
    · rw [Chunk.raymarch, hval] at hrun
      exact absurd hrun (by simp)
    · rw [Chunk.raymarch, hval] at hrun
      simp only [Option.getD_some] at hrun
      rw [hrun]
  have hshape := raymarchGo_normal_shape c o d pc maxD (raymarchFuel maxD) 0 none
    (by intro pb hpb; exact absurd hpb (by simp)) hit nrm hgo hnrm
  rcases hshape with ⟨pb, q, hpb, hq, _, _, hne, heq⟩ | ⟨p, hp, heq⟩
  · obtain ⟨b1, b2, b3, b4, b5, b6⟩ := containsIVec3_spec pb hpb
    obtain ⟨c1, c2, c3, c4, c5, c6⟩ := containsIVec3_spec q hq
    subst heq
    refine ⟨?_, ?_, ?_, ?_⟩
    · intro hzero
      apply hne
      have hx : pb.x - q.x = 0 := congrArg IVec3.x hzero
      have hy : pb.y - q.y = 0 := congrArg IVec3.y hzero
      have hz : pb.z - q.z = 0 := congrArg IVec3.z hzero
      cases pb; cases q
      simp only at hx hy hz
      simp only [IVec3.mk.injEq]
      omega
    · rw [IVec3.sub_def]; simp only; omega
    · rw [IVec3.sub_def]; simp only; omega
    · rw [IVec3.sub_def]; simp only; omega
  · have hu := hadj p hp
    subst heq
    simp only [unitAxis, Bool.or_eq_true, decide_eq_true_eq] at hu
    rcases hu with ((((h | h) | h) | h) | h) | h <;> rw [h] <;>
      exact ⟨by simp [IVec3.mk.injEq], by decide, by decide, by decide⟩

/-- C7 witness: the in-chunk hit of the amended C5 scenario has normal
(0,0,-1), which the amended theorem certifies nonzero and bounded. -/
theorem c7_witness :
    (⟨0, 0, -1⟩ : IVec3) ≠ ⟨0, 0, 0⟩ ∧
      (0 : ℤ).natAbs ≤ 31 ∧ (0 : ℤ).natAbs ≤ 31 ∧ (-1 : ℤ).natAbs ≤ 31 :=
  c7_amended_normal_shape chunkSingle555 ⟨5, 5, 0⟩ ⟨0, 0, 1⟩ none 100
    (fun p hp => absurd hp (by simp)) ⟨⟨5, 5, 5⟩, some ⟨0, 0, -1⟩⟩ ⟨0, 0, -1⟩
    (by decide) rfl

/-! ## C8: the epsilon floor does not guarantee forward progress in `f32` -/

/-- C8 (evidence for the code bug): the claimed progress floor fails in the
program.  A bit-exact IEEE-754 replay of the source loop on an all-air
chunk with `ray_origin = (16, 5.5, 5.5)` and
`ray_direction = (-2^-13, 0, 0)` shows the 29th iteration at running
distance `t = 32768.0` exactly, sample position `(12.0, 5.5, 5.5)` exactly
on an integer x-boundary inside the chunk.  This theorem evaluates the
step computation of the model at that state, where every input is exactly
representable in `f32`: the x-delta to the next boundary is zero, the y/z
deltas are `+inf` (zero direction components), the computed step is exactly
the clamp `EPS = 1e-3`, the sample voxel `(12, 5, 5)` passes the bounds
check, and the model adds the step exactly, giving `32768 + EPS`.  The
source instead accumulates `t` in `f32`, whose spacing at `32768` is
`2^-8 = 0.0039...`: its clamped step, the `f32` nearest `1e-3` (about
`EPS + 4.75e-11`, likewise below the half-ulp `2^-9`), is absorbed, `t`
rounds back to `32768.0`, so in the program `t` and the sample position
never change again and the `while t < maximum_distance` loop never
terminates — the epsilon floor does not guarantee forward progress, and the
`⌈max_distance / EPS⌉` step bound fails for any `maximum_distance` above
`32768`. -/
theorem c8_stall_step_is_eps :
    stepSize ⟨12, 11 / 2, 11 / 2⟩ ⟨-(1 / 8192), 0, 0⟩ = .fin EPS ∧
    EPS = 1 / 1000 ∧
    containsIVec3 ⟨12, 5, 5⟩ = true ∧
    advanceT 200000 32768 (stepSize ⟨12, 11 / 2, 11 / 2⟩ ⟨-(1 / 8192), 0, 0⟩) =
      32768 + EPS := by
  refine ⟨by decide, rfl, by decide, by decide⟩

/-! ## C4: the visibility graph after mutations -/

/-- `set_block` leaves the stored visibility graph untouched. -/
theorem set_block_visibility_graph (c : Chunk) (p : NVec3) (id : Nat) :
    (c.set_block p id).visibility_graph = c.visibility_graph := rfl

theorem foldl_set_block_visibility_graph (ops : List (NVec3 × Nat)) :
    ∀ c : Chunk,
      (ops.foldl (fun c op => c.set_block op.1 op.2) c).visibility_graph =
        c.visibility_graph := by
  induction ops with
  | nil => intro c; rfl
  | cons op rest ih => intro c; exact ih (c.set_block op.1 op.2)

/-- C4 counterexample: construct a fully solid chunk (visibility graph all
true), then `set_block` its (0,0,0) voxel to air — the stored graph still
claims the NegX, NegY and NegZ boundary planes opaque while recomputing from the
current blocks does not. -/
theorem c4_counterexample :
    chunkStale.visibility_graph ≠
      VisibilityGraph.compute sampleRegistry chunkStale.blocks := by decide

/-- C4 (amended): the stored `VisibilityGraph` equals
`VisibilityGraph::compute` of the blocks the chunk was constructed with;
`set_block` does not re-derive it, so after any sequence of mutations the
graph still reflects the construction-time contents (and can be stale, as
the counterexample shows), rather than tracking the current block array.
spec-modelled: `VisibilityGraph::compute` and the storage are modelled from
the spec (§4.1, §4.2); `Chunk::new`/`Chunk::set_block` are from src. -/
theorem c4_amended_graph_construction_time (R : Registry) (pos : IVec3)
    (init : Blocks) (ops : List (NVec3 × Nat)) :
    (ops.foldl (fun c op => c.set_block op.1 op.2)
        (Chunk.new R pos init)).visibility_graph =
      VisibilityGraph.compute R init :=
  foldl_set_block_visibility_graph ops (Chunk.new R pos init)

/-! ## C6 and C10: index buffer structure -/

/-- C6: in a single generator call (`mesh_culled` or `mesh_greedy`), every
emitted quad appends exactly the index pattern `[0,1,2,2,3,0]` offset by the
vertex count at the time of emission (first conjunct: each `add_face` call;
second and third: both generators therefore produce the canonical
per-quad pattern), and in particular two consecutive unit faces in one
generator call produce the index sequences `[0,1,2,2,3,0]` and
`[4,5,6,6,7,4]` (last conjunct).
spec-modelled: the block registry the generators read is modelled from the
spec (§6). -/
theorem c6_index_pattern :
    (∀ (t : QVec3) (m : MeshData) (q : Quad),
      (addFace t m q).indices =
        m.indices ++ [0, 1, 2, 2, 3, 0].map (· + m.vertices.length)) ∧
    (∀ (R : Registry) (input : ChunkMeshInput),
      (mesh_culled R input).indices =
        quadIndexPattern (culledEvents R input.blocks).length) ∧
    (∀ (R : Registry) (input : ChunkMeshInput),
      (mesh_greedy R input).indices =
        quadIndexPattern (greedyEvents R input.blocks).length) ∧
    (∀ (t : QVec3) (q1 q2 : Quad),
      ([q1, q2].foldl (addFace t) MeshData.empty).indices =
        [0, 1, 2, 2, 3, 0, 4, 5, 6, 6, 7, 4]) := by
  refine ⟨addFace_indices, mesh_culled_indices, mesh_greedy_indices, ?_⟩
  intro t q1 q2
  have h := (foldl_addFace_spec t [q1, q2] MeshData.empty 0 rfl rfl).2
  rw [h]
  rfl

/-- C10: for every input, the meshes returned by `mesh_culled` and
`mesh_greedy` have a vertex count that is a multiple of 4, an index count
equal to 6 times the quad count (the vertex count divided by 4), every index
strictly below the vertex count, and each group of 6 indices referencing
only the 4 vertices of its own quad (`bufferWF`).
spec-modelled: the block registry the generators read is modelled from the
spec (§6). -/
theorem c10_buffer_invariants (R : Registry) (input : ChunkMeshInput) :
    bufferWF (mesh_culled R input) ∧ bufferWF (mesh_greedy R input) :=
  ⟨bufferWF_of_pattern _ _ (mesh_culled_vertices_length R input)
      (mesh_culled_indices R input),
   bufferWF_of_pattern _ _ (mesh_greedy_vertices_length R input)
      (mesh_greedy_indices R input)⟩

/-- C10 witness: the invariants instantiated at the sample registry, the
single-solid-voxel block array and zero translation. -/
theorem c10_witness :
    bufferWF (mesh_culled sampleRegistry ⟨blocksSingle555, ⟨0, 0, 0⟩⟩) ∧
      bufferWF (mesh_greedy sampleRegistry ⟨blocksSingle555, ⟨0, 0, 0⟩⟩) :=
  c10_buffer_invariants sampleRegistry ⟨blocksSingle555, ⟨0, 0, 0⟩⟩

/-! ## C2: characterization of culled meshing

The depth loop of `add_visible_faces` is characterized layer by layer: the
visibility flag entering step `i` is a pure function of the column, and the
emitted quads are exactly the flat map of a per-step emission function. -/

/-- Block id in column (u,v) of direction `d` at depth position `lp`. -/
def columnId (blocks : Blocks) (d : Dir) (u v lp : Nat) : Nat :=
  blocks (uvec3_to_chunk_index (d.rotate ⟨u, v, lp⟩))

/-- The visibility flag of `add_visible_faces` entering depth step `i`:
`true` at the sweep start, afterwards whether the previous (farther) block
has no face in the opposite direction. -/
def culledVis (R : Registry) (blocks : Blocks) (d : Dir) (u v : Nat) : Nat → Bool
  | 0 => true
  | i + 1 => (R (columnId blocks d u v (layerPos d i)) d.opposite).isNone

/-- The quads `add_visible_faces` emits at depth step `i` of column (u,v). -/
def culledEmit (R : Registry) (blocks : Blocks) (d : Dir) (u v i : Nat) : List Quad :=
  match R (columnId blocks d u v (layerPos d i)) d with
  | some f =>
    if culledVis R blocks d u v i then
      [⟨d, u, v, layerPos d i, 1, 1, f.textureIndex⟩]
    else []
  | none => []

theorem culledColumnGo_eq_flatMap (R : Registry) (blocks : Blocks) (d : Dir)
    (u v : Nat) : ∀ (n k : Nat),
    culledColumnGo R blocks d u v (List.range' k n) (culledVis R blocks d u v k) =
      (List.range' k n).flatMap (culledEmit R blocks d u v) := by
  intro n
  induction n with
  | zero => intro k; rfl
  | succ m ih =>
    intro k
    rw [List.range'_succ, culledColumnGo]
    show culledEmit R blocks d u v k ++
      culledColumnGo R blocks d u v (List.range' (k + 1) m)
        (culledVis R blocks d u v (k + 1)) = _
    rw [ih (k + 1), List.flatMap_cons]

theorem add_visible_faces_eq (R : Registry) (blocks : Blocks) (d : Dir) :
    add_visible_faces R blocks d =
      (List.range 32).flatMap fun u =>
        (List.range 32).flatMap fun v =>
          (List.range 32).flatMap (culledEmit R blocks d u v) := by
  unfold add_visible_faces
  refine List.flatMap_congr ?_
  intro u _
  refine List.flatMap_congr ?_
  intro v _
  have h := culledColumnGo_eq_flatMap R blocks d u v 32 0
  rw [← List.range_eq_range'] at h
  exact h

/-- Signed unit vector of a face direction. -/
def dirVec (d : Dir) : IVec3 :=
  match d with
  | .posX => ⟨1, 0, 0⟩
  | .posY => ⟨0, 1, 0⟩
  | .posZ => ⟨0, 0, 1⟩
  | .negX => ⟨-1, 0, 0⟩
  | .negY => ⟨0, -1, 0⟩
  | .negZ => ⟨0, 0, -1⟩

instance : Add IVec3 := ⟨fun a b => ⟨a.x + b.x, a.y + b.y, a.z + b.z⟩⟩

theorem IVec3_add_def (a b : IVec3) :
    a + b = ⟨a.x + b.x, a.y + b.y, a.z + b.z⟩ := rfl

/-- The voxel adjacent to `p` on the viewer's side of a face of direction
`d`: the next voxel in direction `d`. -/
def neighborPos (p : NVec3) (d : Dir) : IVec3 := IVec3.ofN p + dirVec d

theorem layerPos_lt (d : Dir) (i : Nat) (h : i < 32) : layerPos d i < 32 := by
  cases d <;> simp [layerPos, Dir.negative] <;> omega

/-- At the first depth step the viewer-side neighbor lies outside the chunk. -/
theorem neighborPos_first (d : Dir) (u v : Nat) :
    containsIVec3 (neighborPos (d.rotate ⟨u, v, layerPos d 0⟩) d) = false := by
  cases d <;>
    simp [neighborPos, layerPos, Dir.negative, Dir.rotate, IVec3.ofN,
      IVec3_add_def, dirVec, containsIVec3]

/-- At a later depth step the viewer-side neighbor is the block of the
previous (farther) layer. -/
theorem neighborPos_succ (d : Dir) (u v i : Nat) (h : i + 1 < 32) :
    neighborPos (d.rotate ⟨u, v, layerPos d (i + 1)⟩) d =
      IVec3.ofN (d.rotate ⟨u, v, layerPos d i⟩) := by
  cases d <;>
    simp only [neighborPos, layerPos, Dir.negative, Dir.rotate, IVec3.ofN,
      IVec3_add_def, dirVec, if_true, if_false, Bool.false_eq_true,
      IVec3.mk.injEq] <;>
    refine ⟨?_, ?_, ?_⟩ <;> push_cast <;> omega

theorem containsIVec3_ofN (w : NVec3) (hx : w.x < 32) (hy : w.y < 32)
    (hz : w.z < 32) : containsIVec3 (IVec3.ofN w) = true := by
  simp only [containsIVec3, IVec3.ofN, Bool.and_eq_true, decide_eq_true_eq]
  refine ⟨⟨⟨⟨⟨?_, ?_⟩, ?_⟩, ?_⟩, ?_⟩, ?_⟩ <;> push_cast <;> omega

theorem toN_ofN (w : NVec3) : (IVec3.ofN w).toN = w := by
  simp [IVec3.ofN, IVec3.toN]

/-- Coordinates of a rotated in-range triple are in range. -/
theorem rotate_coords_lt (d : Dir) (u v l : Nat) (hu : u < 32) (hv : v < 32)
    (hl : l < 32) : (d.rotate ⟨u, v, l⟩).x < 32 ∧ (d.rotate ⟨u, v, l⟩).y < 32 ∧
      (d.rotate ⟨u, v, l⟩).z < 32 := by
  cases d <;> exact ⟨by simpa [Dir.rotate], by simpa [Dir.rotate], by simpa [Dir.rotate]⟩

/-- Membership in the per-step emission. -/
theorem culledEmit_mem (R : Registry) (blocks : Blocks) (d : Dir) (u v i : Nat)
    (q : Quad) : q ∈ culledEmit R blocks d u v i ↔
      ∃ f, R (columnId blocks d u v (layerPos d i)) d = some f ∧
        culledVis R blocks d u v i = true ∧
        q = ⟨d, u, v, layerPos d i, 1, 1, f.textureIndex⟩ := by
  cases hface : R (columnId blocks d u v (layerPos d i)) d with
  | none => simp [culledEmit, hface]
  | some f =>
    cases hvis : culledVis R blocks d u v i with
    | true => simp [culledEmit, hface, hvis]
    | false => simp [culledEmit, hface, hvis]

theorem culledEmit_shape (R : Registry) (blocks : Blocks) (d : Dir) (u v i : Nat)
    (q : Quad) (h : q ∈ culledEmit R blocks d u v i) :
    q.dir = d ∧ q.u = u ∧ q.v = v ∧ q.layer = layerPos d i := by
  obtain ⟨f, _, _, rfl⟩ := (culledEmit_mem R blocks d u v i q).1 h
  exact ⟨rfl, rfl, rfl, rfl⟩

theorem culledEmit_nodup (R : Registry) (blocks : Blocks) (d : Dir) (u v i : Nat) :
    (culledEmit R blocks d u v i).Nodup := by
  unfold culledEmit
  split
  · split <;> simp
  · simp

/-- The inverse of `layerPos`: the step index whose layer position is `l`. -/
def layerInv (d : Dir) (l : Nat) : Nat := if d.negative then l else 31 - l

theorem layerPos_layerInv (d : Dir) (l : Nat) (h : l < 32) :
    layerPos d (layerInv d l) = l ∧ layerInv d l < 32 := by
  cases d <;> simp [layerPos, layerInv, Dir.negative] <;> omega

/-- The C2 predicate: `q` is a unit quad whose voxel has a face in `q.dir`
and whose viewer-side neighbor (the next voxel in direction `q.dir`) lies
outside the chunk or has no face in the opposite direction. -/
def visibleFacePred (R : Registry) (blocks : Blocks) (q : Quad) : Prop :=
  q.w = 1 ∧ q.h = 1 ∧ q.u < 32 ∧ q.v < 32 ∧ q.layer < 32 ∧
  (∃ f, faceAt R blocks q.pos q.dir = some f ∧ q.texture = f.textureIndex) ∧
  (containsIVec3 (neighborPos q.pos q.dir) = false ∨
    R (blocks (uvec3_to_chunk_index (neighborPos q.pos q.dir).toN))
      q.dir.opposite = none)

theorem mem_dirOrder (d : Dir) : d ∈ dirOrder := by cases d <;> simp [dirOrder]

theorem culledEvents_mem (R : Registry) (blocks : Blocks) (q : Quad) :
    q ∈ culledEvents R blocks ↔ visibleFacePred R blocks q := by
  constructor
  · intro hmem
    rw [culledEvents, List.mem_flatMap] at hmem
    obtain ⟨d, _, hmem⟩ := hmem
    rw [add_visible_faces_eq, List.mem_flatMap] at hmem
    obtain ⟨u, hu, hmem⟩ := hmem
    rw [List.mem_flatMap] at hmem
    obtain ⟨v, hv, hmem⟩ := hmem
    rw [List.mem_flatMap] at hmem
    obtain ⟨i, hi, hmem⟩ := hmem
    rw [List.mem_range] at hu hv hi
    obtain ⟨f, hface, hvis, rfl⟩ := (culledEmit_mem R blocks d u v i q).1 hmem
    refine ⟨rfl, rfl, hu, hv, layerPos_lt d i hi, ⟨f, hface, rfl⟩, ?_⟩
    simp only [Quad.pos]
    cases i with
    | zero => exact Or.inl (neighborPos_first d u v)
    | succ j =>
      right
      rw [neighborPos_succ d u v j hi, toN_ofN]
      rw [culledVis, Option.isNone_iff_eq_none] at hvis
      exact hvis
  · intro hpred
    obtain ⟨hw, hh, hu, hv, hl, ⟨f, hface, htex⟩, hnbr⟩ := hpred
    obtain ⟨hlp, hinv⟩ := layerPos_layerInv q.dir q.layer hl
    rw [culledEvents, List.mem_flatMap]
    refine ⟨q.dir, mem_dirOrder q.dir, ?_⟩
    rw [add_visible_faces_eq, List.mem_flatMap]
    refine ⟨q.u, List.mem_range.mpr hu, ?_⟩
    rw [List.mem_flatMap]
    refine ⟨q.v, List.mem_range.mpr hv, ?_⟩
    rw [List.mem_flatMap]
    refine ⟨layerInv q.dir q.layer, List.mem_range.mpr hinv, ?_⟩
    rw [culledEmit_mem]
    have hcol : columnId blocks q.dir q.u q.v (layerPos q.dir (layerInv q.dir q.layer)) =
        blocks (uvec3_to_chunk_index q.pos) := by
      rw [hlp]; rfl
    refine ⟨f, ?_, ?_, ?_⟩
    · rw [hcol]; exact hface
    · cases hcase : layerInv q.dir q.layer with
      | zero => rfl
      | succ j =>
        rw [culledVis, Option.isNone_iff_eq_none]
        have hj : j + 1 < 32 := hcase ▸ hinv
        have hq : q.pos = q.dir.rotate ⟨q.u, q.v, layerPos q.dir (j + 1)⟩ := by
          rw [← hcase, hlp]; rfl
        rcases hnbr with hout | hnone
        · rw [hq, neighborPos_succ q.dir q.u q.v j hj] at hout
          have hlt := rotate_coords_lt q.dir q.u q.v (layerPos q.dir j) hu hv
            (layerPos_lt q.dir j (by omega))
          rw [containsIVec3_ofN _ hlt.1 hlt.2.1 hlt.2.2] at hout
          exact absurd hout (by simp)
        · rw [hq, neighborPos_succ q.dir q.u q.v j hj, toN_ofN] at hnone
          exact hnone
    · obtain ⟨qd, qu, qv, ql, qw, qh, qt⟩ := q
      dsimp only at hw hh htex hlp ⊢
      subst hw
      subst hh
      subst htex
      rw [hlp]

/-- `flatMap` of key-separated blocks is duplicate-free. -/
theorem nodup_flatMap_key {α β γ : Type} (l : List α) (f : α → List β)
    (k : β → γ) (g : α → γ) (hl : (l.map g).Nodup)
    (hf : ∀ a ∈ l, (f a).Nodup)
    (hk : ∀ a ∈ l, ∀ b ∈ f a, k b = g a) : (l.flatMap f).Nodup := by
  induction l with
  | nil => simp
  | cons a rest ih =>
    rw [List.flatMap_cons]
    rw [List.map_cons, List.nodup_cons] at hl
    refine List.Nodup.append (hf a (List.mem_cons_self a rest)) ?_ ?_
    · exact ih hl.2 (fun x hx => hf x (List.mem_cons_of_mem a hx))
        (fun x hx => hk x (List.mem_cons_of_mem a hx))
    · intro b hb hb'
      rw [List.mem_flatMap] at hb'
      obtain ⟨a', ha', hba'⟩ := hb'
      have h1 : k b = g a := hk a (List.mem_cons_self a rest) b hb
      have h2 : k b = g a' := hk a' (List.mem_cons_of_mem a ha') b hba'
      exact hl.1 (h1 ▸ h2 ▸ List.mem_map_of_mem g ha')

theorem layerPos_map_nodup (d : Dir) : ((List.range 32).map (layerPos d)).Nodup := by
  refine List.Nodup.map_on ?_ (List.nodup_range 32)
  intro x hx y hy hxy
  rw [List.mem_range] at hx hy
  cases d <;> simp [layerPos, Dir.negative] at hxy <;> omega

theorem culledEvents_nodup (R : Registry) (blocks : Blocks) :
    (culledEvents R blocks).Nodup := by
  rw [culledEvents]
  refine nodup_flatMap_key dirOrder _ Quad.dir id (by decide) ?_ ?_
  · intro d _
    rw [add_visible_faces_eq]
    refine nodup_flatMap_key (List.range 32) _ Quad.u id
      (by rw [List.map_id]; exact List.nodup_range 32) ?_ ?_
    · intro u _
      refine nodup_flatMap_key (List.range 32) _ Quad.v id
        (by rw [List.map_id]; exact List.nodup_range 32) ?_ ?_
      · intro v _
        refine nodup_flatMap_key (List.range 32) _ Quad.layer (layerPos d)
          (layerPos_map_nodup d) ?_ ?_
        · intro i _; exact culledEmit_nodup R blocks d u v i
        · intro i _ b hb; exact (culledEmit_shape R blocks d u v i b hb).2.2.2
      · intro v _ b hb
        rw [List.mem_flatMap] at hb
        obtain ⟨i, _, hb⟩ := hb
        exact (culledEmit_shape R blocks d u v i b hb).2.2.1
    · intro u _ b hb
      rw [List.mem_flatMap] at hb
      obtain ⟨v, _, hb⟩ := hb
      rw [List.mem_flatMap] at hb
      obtain ⟨i, _, hb⟩ := hb
      exact (culledEmit_shape R blocks d u v i b hb).2.1
  · intro d _ b hb
    rw [add_visible_faces_eq, List.mem_flatMap] at hb
    obtain ⟨u, _, hb⟩ := hb
    rw [List.mem_flatMap] at hb
    obtain ⟨v, _, hb⟩ := hb
    rw [List.mem_flatMap] at hb
    obtain ⟨i, _, hb⟩ := hb
    exact (culledEmit_shape R blocks d u v i b hb).1

/-- C2: `mesh_culled` emits exactly one unit quad at voxel `p` in direction
`D` if and only if `p`'s block model has a face in direction `D` and the
adjacent voxel on the viewer's side (the next voxel in direction `D`) either
lies outside the chunk or has no face in the opposite direction; no two
coplanar faces are merged, so every emitted quad has size 1×1 (the first
component characterizes membership — including `w = h = 1` — and the second,
duplicate-freeness, makes the quad at each voxel/direction unique).
spec-modelled: the block registry is modelled from the spec (§6). -/
theorem c2_culled_characterization (R : Registry) (blocks : Blocks) :
    (∀ q : Quad, q ∈ culledEvents R blocks ↔ visibleFacePred R blocks q) ∧
      (culledEvents R blocks).Nodup :=
  ⟨culledEvents_mem R blocks, culledEvents_nodup R blocks⟩

/-! ## C3 and C1: analysis of greedy meshing

Fix a registry, a block array and a face direction.  Every read and write of
the `visible`/`already_merged` arrays during one layer is characterized
pointwise; the growth loops are proved to merge exactly a rectangle of cells
whose face descriptors equal the original face and that were visible when
read. -/

section GreedyAnalysis

variable (R : Registry) (blocks : Blocks) (d : Dir)

/-- The face descriptor of the cell at in-layer coordinates (u,v) of the
layer at depth `lp`. -/
def cellFaceL (lp u v : Nat) : Option BlockFace := R (columnId blocks d u v lp) d

/-- Whether the cell at (u,v) of the layer at `lp` lets the view through to
the next layer (no face in the opposite direction). -/
def oppNoneL (lp u v : Nat) : Bool := (R (columnId blocks d u v lp) d.opposite).isNone

theorem upd_same (a : LayerArr) (i : Nat) (b : Bool) : upd a i b i = b := by
  simp [upd]

theorem upd_other (a : LayerArr) (i : Nat) (b : Bool) (j : Nat) (h : j ≠ i) :
    upd a i b j = a j := by
  simp [upd, h]

theorem consider_merge_candidate_eq (vis : LayerArr) (lp : Nat) (f : BlockFace)
    (cu cv : Nat) :
    consider_merge_candidate R blocks d vis lp f cu cv =
      ((some f == cellFaceL R blocks d lp cu cv) && vis (32 * cv + cu),
        oppNoneL R blocks d lp cu cv) := rfl

theorem can_merge_comp (f : BlockFace) (g : Option BlockFace)
    (h : (some f == g) = true) : g = some f := (beq_iff_eq.1 h).symm

/-- What the U-direction march does: it returns some widening `k` of the
run; the cells it merges — columns `[a, a+k)` of row `v` — all carry the
original face and were visible in the array the march started from, and get
their visibility set to the next layer's value and their merged flag set;
every other index of both arrays is untouched. -/
theorem growU_spec (lp : Nat) (f : BlockFace) (v : Nat) :
    ∀ (n a : Nat) (vis mer : LayerArr) (w : Nat),
    ∃ (k : Nat) (vis' mer' : LayerArr),
      growU R blocks d lp f v (List.range' a n) vis mer w = (w + k, vis', mer') ∧
      k ≤ n ∧
      (∀ cu, a ≤ cu → cu < a + k →
        cellFaceL R blocks d lp cu v = some f ∧ vis (32 * v + cu) = true ∧
        vis' (32 * v + cu) = oppNoneL R blocks d lp cu v ∧
        mer' (32 * v + cu) = true) ∧
      (∀ j, (∀ cu, a ≤ cu → cu < a + k → j ≠ 32 * v + cu) →
        vis' j = vis j ∧ mer' j = mer j) := by
  intro n
  induction n with
  | zero =>
    intro a vis mer w
    exact ⟨0, vis, mer, rfl, Nat.le_refl 0, fun cu h1 h2 => absurd h2 (by omega),
      fun j _ => ⟨rfl, rfl⟩⟩
  | succ m ih =>
    intro a vis mer w
    rw [List.range'_succ, growU]
    rw [consider_merge_candidate_eq]
    by_cases hmerge : ((some f == cellFaceL R blocks d lp a v) && vis (32 * v + a)) = true
    · rw [if_pos hmerge]
      obtain ⟨hface, hvis⟩ := Bool.and_eq_true_iff.1 hmerge
      obtain ⟨k', vis', mer', hrun, hk', hcells, hother⟩ :=
        ih (a + 1) (upd vis (32 * v + a) (oppNoneL R blocks d lp a v))
          (upd mer (32 * v + a) true) (w + 1)
      refine ⟨k' + 1, vis', mer', ?_, by omega, ?_, ?_⟩
      · rw [hrun]
        exact congrArg (fun t => (t, vis', mer')) (by omega)
      · intro cu h1 h2
        by_cases hceq : cu = a
        · subst hceq
          refine ⟨can_merge_comp f _ hface, hvis, ?_, ?_⟩
          · have := (hother (32 * v + cu) (fun cu' hc1 hc2 => by omega)).1
            rw [this, upd_same]
          · have := (hother (32 * v + cu) (fun cu' hc1 hc2 => by omega)).2
            rw [this, upd_same]
        · obtain ⟨hf, hv, hv', hm'⟩ := hcells cu (by omega) (by omega)
          refine ⟨hf, ?_, hv', hm'⟩
          rw [upd_other vis _ _ _ (by omega)] at hv
          exact hv
      · intro j hj
        obtain ⟨h1, h2⟩ := hother j (fun cu hc1 hc2 => hj cu (by omega) (by omega))
        rw [h1, h2, upd_other vis _ _ _ (hj a (Nat.le_refl a) (by omega)),
          upd_other mer _ _ _ (hj a (Nat.le_refl a) (by omega))]
        exact ⟨rfl, rfl⟩
    · rw [if_neg hmerge]
      exact ⟨0, vis, mer, rfl, Nat.zero_le _, fun cu h1 h2 => absurd h2 (by omega),
        fun j _ => ⟨rfl, rfl⟩⟩

theorem rowCheck_spec (lp : Nat) (f : BlockFace) (cv : Nat) :
    ∀ (w a : Nat) (vis : LayerArr),
    rowCheck R blocks d lp f cv vis (List.range' a w) = none ∨
    (rowCheck R blocks d lp f cv vis (List.range' a w) =
        some ((List.range' a w).map (fun cu => (cu, oppNoneL R blocks d lp cu cv))) ∧
      ∀ cu, a ≤ cu → cu < a + w →
        cellFaceL R blocks d lp cu cv = some f ∧ vis (32 * cv + cu) = true) := by
  intro w
  induction w with
  | zero =>
    intro a vis
    exact Or.inr ⟨rfl, fun cu h1 h2 => absurd h2 (by omega)⟩
  | succ m ih =>
    intro a vis
    rw [List.range'_succ, rowCheck, consider_merge_candidate_eq]
    by_cases hm : ((some f == cellFaceL R blocks d lp a cv) && vis (32 * cv + a)) = true
    · rw [if_pos hm]
      obtain ⟨hface, hvis⟩ := Bool.and_eq_true_iff.1 hm
      rcases ih (a + 1) vis with hnone | ⟨hsome, hfacts⟩
      · rw [hnone]
        exact Or.inl rfl
      · rw [hsome]
        refine Or.inr ⟨?_, ?_⟩
        · rfl
        · intro cu h1 h2
          by_cases hceq : cu = a
          · subst hceq
            exact ⟨can_merge_comp f _ hface, hvis⟩
          · exact hfacts cu (by omega) (by omega)
    · rw [if_neg hm]
      exact Or.inl rfl

theorem foldl_upd_pairs (g : Nat → Bool) (b : Nat) :
    ∀ (w a : Nat) (A : LayerArr),
      (∀ cu, a ≤ cu → cu < a + w →
        (((List.range' a w).map (fun cu => (cu, g cu))).foldl
          (fun acc p => upd acc (32 * b + p.1) p.2) A) (32 * b + cu) = g cu) ∧
      (∀ j, (∀ cu, a ≤ cu → cu < a + w → j ≠ 32 * b + cu) →
        (((List.range' a w).map (fun cu => (cu, g cu))).foldl
          (fun acc p => upd acc (32 * b + p.1) p.2) A) j = A j) := by
  intro w
  induction w with
  | zero =>
    intro a A
    exact ⟨fun cu h1 h2 => absurd h2 (by omega), fun j _ => rfl⟩
  | succ m ih =>
    intro a A
    rw [List.range'_succ, List.map_cons, List.foldl_cons]
    obtain ⟨ihv, iho⟩ := ih (a + 1) (upd A (32 * b + a) (g a))
    constructor
    · intro cu h1 h2
      by_cases hceq : cu = a
      · subst hceq
        rw [iho (32 * b + cu) (fun cu' hc1 hc2 => by omega), upd_same]
      · exact ihv cu (by omega) (by omega)
    · intro j hj
      rw [iho j (fun cu hc1 hc2 => hj cu (by omega) (by omega)),
        upd_other A _ _ _ (hj a (Nat.le_refl a) (by omega))]

theorem foldl_updTrue (b : Nat) :
    ∀ (w a : Nat) (A : LayerArr),
      (∀ cu, a ≤ cu → cu < a + w →
        ((List.range' a w).foldl (fun acc cu => upd acc (32 * b + cu) true) A)
          (32 * b + cu) = true) ∧
      (∀ j, (∀ cu, a ≤ cu → cu < a + w → j ≠ 32 * b + cu) →
        ((List.range' a w).foldl (fun acc cu => upd acc (32 * b + cu) true) A) j = A j) := by
  intro w
  induction w with
  | zero =>
    intro a A
    exact ⟨fun cu h1 h2 => absurd h2 (by omega), fun j _ => rfl⟩
  | succ m ih =>
    intro a A
    rw [List.range'_succ, List.foldl_cons]
    obtain ⟨ihv, iho⟩ := ih (a + 1) (upd A (32 * b + a) true)
    constructor
    · intro cu h1 h2
      by_cases hceq : cu = a
      · subst hceq
        rw [iho (32 * b + cu) (fun cu' hc1 hc2 => by omega), upd_same]
      · exact ihv cu (by omega) (by omega)
    · intro j hj
      rw [iho j (fun cu hc1 hc2 => hj cu (by omega) (by omega)),
        upd_other A _ _ _ (hj a (Nat.le_refl a) (by omega))]

/-- What the V-direction march does: it merges some number `k` of whole rows
`[b, b+k)` across the width band `[u, u+w)`; every merged cell carries the
original face and was visible in the array the march started from, and gets
its visibility set to the next layer's value and its merged flag set; every
other index of both arrays is untouched. -/
theorem growV_spec (lp : Nat) (f : BlockFace) (u w : Nat) (huw : u + w ≤ 32) :
    ∀ (m b : Nat) (vis mer : LayerArr) (h : Nat),
    ∃ (k : Nat) (vis' mer' : LayerArr),
      growV R blocks d lp f u w (List.range' b m) vis mer h = (h + k, vis', mer') ∧
      k ≤ m ∧
      (∀ cv cu, b ≤ cv → cv < b + k → u ≤ cu → cu < u + w →
        cellFaceL R blocks d lp cu cv = some f ∧ vis (32 * cv + cu) = true ∧
        vis' (32 * cv + cu) = oppNoneL R blocks d lp cu cv ∧
        mer' (32 * cv + cu) = true) ∧
      (∀ j, (∀ cv cu, b ≤ cv → cv < b + k → u ≤ cu → cu < u + w → j ≠ 32 * cv + cu) →
        vis' j = vis j ∧ mer' j = mer j) := by
  intro m
  induction m with
  | zero =>
    intro b vis mer h
    exact ⟨0, vis, mer, rfl, Nat.le_refl 0, fun cv cu h1 h2 => absurd h2 (by omega),
      fun j _ => ⟨rfl, rfl⟩⟩
  | succ m' ih =>
    intro b vis mer h
    rw [List.range'_succ, growV]
    rcases rowCheck_spec R blocks d lp f b w u vis with hnone | ⟨hsome, hfacts⟩
    · rw [hnone]
      exact ⟨0, vis, mer, rfl, Nat.zero_le _, fun cv cu h1 h2 => absurd h2 (by omega),
        fun j _ => ⟨rfl, rfl⟩⟩
    · rw [hsome]
      dsimp only
      obtain ⟨pairsv, pairso⟩ :=
        foldl_upd_pairs (fun cu => oppNoneL R blocks d lp cu b) b w u vis
      obtain ⟨truev, trueo⟩ := foldl_updTrue b w u mer
      obtain ⟨k', vis', mer', hrun, hk', hcells, hother⟩ :=
        ih (b + 1)
          (((List.range' u w).map (fun cu => (cu, oppNoneL R blocks d lp cu b))).foldl
            (fun acc p => upd acc (32 * b + p.1) p.2) vis)
          ((List.range' u w).foldl (fun acc cu => upd acc (32 * b + cu) true) mer)
          (h + 1)
      refine ⟨k' + 1, vis', mer', ?_, by omega, ?_, ?_⟩
      · rw [hrun]
        exact congrArg (fun t => (t, vis', mer')) (by omega)
      · intro cv cu h1 h2 h3 h4
        by_cases hveq : cv = b
        · subst hveq
          obtain ⟨hf, hv⟩ := hfacts cu h3 h4
          refine ⟨hf, hv, ?_, ?_⟩
          · rw [(hother (32 * cv + cu) (fun cv' cu' hc1 hc2 hc3 hc4 => by omega)).1,
              pairsv cu h3 h4]
          · rw [(hother (32 * cv + cu) (fun cv' cu' hc1 hc2 hc3 hc4 => by omega)).2,
              truev cu h3 h4]
        · obtain ⟨hf, hv, hv', hm'⟩ := hcells cv cu (by omega) (by omega) h3 h4
          refine ⟨hf, ?_, hv', hm'⟩
          rw [pairso (32 * cv + cu) (fun cu' hc1 hc2 => by omega)] at hv
          exact hv
      · intro j hj
        obtain ⟨h1, h2⟩ :=
          hother j (fun cv' cu' hc1 hc2 hc3 hc4 => hj cv' cu' (by omega) (by omega) hc3 hc4)
        rw [h1, h2, pairso j (fun cu hc1 hc2 => hj b cu (Nat.le_refl b) (by omega) hc1 hc2),
          trueo j (fun cu hc1 hc2 => hj b cu (Nat.le_refl b) (by omega) hc1 hc2)]
        exact ⟨rfl, rfl⟩

/-- A cell (u,v) is covered by some quad of `E`. -/
def coveredL (E : List Quad) (u v : Nat) : Prop :=
  ∃ q ∈ E, q.u ≤ u ∧ u < q.u + q.w ∧ q.v ≤ v ∧ v < q.v + q.h

theorem coveredL_append_left (E E' : List Quad) (u v : Nat)
    (h : coveredL E u v) : coveredL (E ++ E') u v := by
  obtain ⟨q, hq, hrest⟩ := h
  exact ⟨q, List.mem_append_left E' hq, hrest⟩

/-- Soundness of one greedy quad relative to the layer at `lp` and the
entering visibility `vin`: the quad sits in this layer, within bounds, and
every covered cell carries the (single, shared) original face descriptor and
was visible when the layer started. -/
def quadSoundL (lp : Nat) (vin : Nat → Bool) (q : Quad) : Prop :=
  q.dir = d ∧ q.layer = lp ∧ 1 ≤ q.w ∧ 1 ≤ q.h ∧ q.u + q.w ≤ 32 ∧ q.v + q.h ≤ 32 ∧
  ∃ f : BlockFace, q.texture = f.textureIndex ∧
    ∀ u v, q.u ≤ u → u < q.u + q.w → q.v ≤ v → v < q.v + q.h →
      cellFaceL R blocks d lp u v = some f ∧ vin (32 * v + u) = true

/-- The in-layer loop invariant of `add_greedy_merged_faces`, at the point
where the cells with linear index below `c` have been visited.
(V): a cell's visibility entry holds the next layer's value exactly when the
cell was visited or merged, and the entering value otherwise.
(M): merged cells were visible at layer start and are covered by an emitted
quad.  (C): every visited cell with a visible face is covered.  (S): every
emitted quad is sound. -/
def layerInvP (lp : Nat) (vin : Nat → Bool) (c : Nat) (s : GreedyState) : Prop :=
  (∀ u v, u < 32 → v < 32 →
    s.visible (32 * v + u) =
      if 32 * v + u < c ∨ s.merged (32 * v + u) = true
      then oppNoneL R blocks d lp u v else vin (32 * v + u)) ∧
  (∀ u v, u < 32 → v < 32 → s.merged (32 * v + u) = true →
    vin (32 * v + u) = true ∧ coveredL s.events u v) ∧
  (∀ u v, u < 32 → v < 32 → 32 * v + u < c →
    (cellFaceL R blocks d lp u v).isSome = true → vin (32 * v + u) = true →
    coveredL s.events u v) ∧
  (∀ q ∈ s.events, quadSoundL R blocks d lp vin q)

theorem cellFaceL_def (lp u v : Nat) :
    R (blocks (uvec3_to_chunk_index (d.rotate ⟨u, v, lp⟩))) d =
      cellFaceL R blocks d lp u v := rfl

theorem oppNoneL_def (lp u v : Nat) :
    (R (blocks (uvec3_to_chunk_index (d.rotate ⟨u, v, lp⟩))) d.opposite).isNone =
      oppNoneL R blocks d lp u v := rfl

/-- One step of the in-layer loop preserves the invariant. -/
theorem greedyCell_step (lp : Nat) (vin : Nat → Bool) (u v : Nat)
    (hu : u < 32) (hv : v < 32) (s : GreedyState)
    (hinv : layerInvP R blocks d lp vin (32 * v + u) s) :
    layerInvP R blocks d lp vin (32 * v + u + 1) (greedyCell R blocks d lp v u s) := by
  obtain ⟨V, M, C, S⟩ := hinv
  rw [greedyCell]
  by_cases hmer : s.merged (32 * v + u) = true
  · rw [if_pos hmer]
    refine ⟨?_, M, ?_, S⟩
    · intro u' v' hu' hv'
      rw [V u' v' hu' hv']
      by_cases he : 32 * v' + u' = 32 * v + u
      · rw [he]
        simp [hmer]
      · have : (32 * v' + u' < 32 * v + u ∨ s.merged (32 * v' + u') = true) ↔
            (32 * v' + u' < 32 * v + u + 1 ∨ s.merged (32 * v' + u') = true) := by
          constructor
          · rintro (h | h)
            · exact Or.inl (by omega)
            · exact Or.inr h
          · rintro (h | h)
            · exact Or.inl (by omega)
            · exact Or.inr h
        rcases Classical.em (32 * v' + u' < 32 * v + u ∨ s.merged (32 * v' + u') = true)
          with hcond | hcond
        · rw [if_pos hcond, if_pos (this.1 hcond)]
        · rw [if_neg hcond, if_neg (fun hc => hcond (this.2 hc))]
    · intro u' v' hu' hv' hlt hface hvin
      by_cases he : 32 * v' + u' = 32 * v + u
      · have huv : u' = u ∧ v' = v := by omega
        obtain ⟨rfl, rfl⟩ := huv
        exact (M u' v' hu' hv' hmer).2
      · exact C u' v' hu' hv' (by omega) hface hvin
  · rw [if_neg hmer]
    dsimp only
    simp only [cellFaceL_def, oppNoneL_def]
    have hvisc : s.visible (32 * v + u) = vin (32 * v + u) := by
      rw [V u v hu hv, if_neg]
      rintro (h | h)
      · omega
      · exact hmer h
    -- the visibility entry of the current cell is always rewritten
    have hV1 : ∀ (mer1 : LayerArr), (∀ u' v', u' < 32 → v' < 32 →
        mer1 (32 * v' + u') = s.merged (32 * v' + u')) →
        ∀ u' v', u' < 32 → v' < 32 →
        (upd s.visible (32 * v + u) (oppNoneL R blocks d lp u v)) (32 * v' + u') =
          if 32 * v' + u' < 32 * v + u + 1 ∨ mer1 (32 * v' + u') = true
          then oppNoneL R blocks d lp u' v' else vin (32 * v' + u') := by
      intro mer1 hmer1 u' v' hu' hv'
      by_cases he : 32 * v' + u' = 32 * v + u
      · have huv : u' = u ∧ v' = v := by omega
        obtain ⟨rfl, rfl⟩ := huv
        rw [he, upd_same, if_pos (Or.inl (by omega))]
      · rw [upd_other _ _ _ _ he, V u' v' hu' hv', hmer1 u' v' hu' hv']
        have : (32 * v' + u' < 32 * v + u ∨ s.merged (32 * v' + u') = true) ↔
            (32 * v' + u' < 32 * v + u + 1 ∨ s.merged (32 * v' + u') = true) := by
          constructor
          · rintro (h | h)
            · exact Or.inl (by omega)
            · exact Or.inr h
          · rintro (h | h)
            · exact Or.inl (by omega)
            · exact Or.inr h
        rcases Classical.em (32 * v' + u' < 32 * v + u ∨ s.merged (32 * v' + u') = true)
          with hcond | hcond
        · rw [if_pos hcond, if_pos (this.1 hcond)]
        · rw [if_neg hcond, if_neg (fun hc => hcond (this.2 hc))]
    cases hface : cellFaceL R blocks d lp u v with
    | none =>
      refine ⟨hV1 s.merged (fun _ _ _ _ => rfl), M, ?_, S⟩
      intro u' v' hu' hv' hlt hface' hvin
      by_cases he : 32 * v' + u' = 32 * v + u
      · have huv : u' = u ∧ v' = v := by omega
        obtain ⟨rfl, rfl⟩ := huv
        rw [hface] at hface'
        exact absurd hface' (by simp)
      · exact C u' v' hu' hv' (by omega) hface' hvin
    | some f =>
      dsimp only
      by_cases hvisible : s.visible (32 * v + u) = true
      · rw [if_neg (by rw [hvisible]; simp)]
        have hvinc : vin (32 * v + u) = true := by rw [← hvisc]; exact hvisible
        obtain ⟨k1, vis2, mer2, hrun1, hk1, hcells1, hother1⟩ :=
          growU_spec R blocks d lp f v (31 - u) (u + 1)
            (upd s.visible (32 * v + u) (oppNoneL R blocks d lp u v)) s.merged 1
        rw [hrun1]
        dsimp only
        obtain ⟨k2, vis3, mer3, hrun2, hk2, hcells2, hother2⟩ :=
          growV_spec R blocks d lp f u (1 + k1) (by omega) (31 - v) (v + 1) vis2 mer2 1
        rw [hrun2]
        dsimp only
        -- reading a cell after the current one as `true` means it was visible
        -- at layer start
        have hvinOf : ∀ u' v', u' < 32 → v' < 32 → 32 * v + u < 32 * v' + u' →
            (upd s.visible (32 * v + u) (oppNoneL R blocks d lp u v)) (32 * v' + u') = true →
            vin (32 * v' + u') = true := by
          intro u' v' hu' hv' hgt hread
          rw [upd_other _ _ _ _ (by omega), V u' v' hu' hv'] at hread
          by_cases hm : s.merged (32 * v' + u') = true
          · exact (M u' v' hu' hv' hm).1
          · have hcond : ¬(32 * v' + u' < 32 * v + u ∨ s.merged (32 * v' + u') = true) := by
              rintro (h | h)
              · omega
              · exact hm h
            rw [if_neg hcond] at hread
            exact hread
        -- facts about the merged row-v cells
        have Frow : ∀ cu, u + 1 ≤ cu → cu < u + 1 + k1 →
            cellFaceL R blocks d lp cu v = some f ∧ vin (32 * v + cu) = true ∧
            vis3 (32 * v + cu) = oppNoneL R blocks d lp cu v ∧
            mer3 (32 * v + cu) = true := by
          intro cu h1 h2
          obtain ⟨hf, hread, hv2, hm2⟩ := hcells1 cu h1 h2
          have hcu32 : cu < 32 := by omega
          have hvin := hvinOf cu v hcu32 hv (by omega) hread
          have huntouched := hother2 (32 * v + cu)
            (fun cv' cu' hc1 hc2 hc3 hc4 => by omega)
          exact ⟨hf, hvin, huntouched.1.trans hv2, huntouched.2.trans hm2⟩
        -- facts about the merged cells of the grown rows
        have Frows : ∀ cv cu, v + 1 ≤ cv → cv < v + 1 + k2 → u ≤ cu → cu < u + (1 + k1) →
            cellFaceL R blocks d lp cu cv = some f ∧ vin (32 * cv + cu) = true ∧
            vis3 (32 * cv + cu) = oppNoneL R blocks d lp cu cv ∧
            mer3 (32 * cv + cu) = true := by
          intro cv cu h1 h2 h3 h4
          obtain ⟨hf, hread, hv3, hm3⟩ := hcells2 cv cu h1 h2 h3 h4
          have hcu32 : cu < 32 := by omega
          rw [(hother1 (32 * cv + cu) (fun cu' hc1 hc2 => by omega)).1] at hread
          have hvin := hvinOf cu cv hcu32 (by omega) (by omega) hread
          exact ⟨hf, hvin, hv3, hm3⟩
        -- the original cell: visibility already rewritten, merged flag clear
        have Forig : vis3 (32 * v + u) = oppNoneL R blocks d lp u v ∧
            mer3 (32 * v + u) = s.merged (32 * v + u) := by
          have h2 := hother2 (32 * v + u) (fun cv' cu' hc1 hc2 hc3 hc4 => by omega)
          have h1 := hother1 (32 * v + u) (fun cu' hc1 hc2 => by omega)
          rw [h2.1, h1.1, upd_same, h2.2, h1.2]
          exact ⟨rfl, rfl⟩
        -- cells outside the new quad and distinct from the original keep
        -- their entries
        have Fout : ∀ u' v', u' < 32 → v' < 32 → 32 * v' + u' ≠ 32 * v + u →
            ¬(v' = v ∧ u + 1 ≤ u' ∧ u' < u + 1 + k1) →
            ¬(v + 1 ≤ v' ∧ v' < v + 1 + k2 ∧ u ≤ u' ∧ u' < u + (1 + k1)) →
            vis3 (32 * v' + u') = s.visible (32 * v' + u') ∧
            mer3 (32 * v' + u') = s.merged (32 * v' + u') := by
          intro u' v' hu' hv' hne hnb hnc
          have h2 := hother2 (32 * v' + u') (fun cv' cu' hc1 hc2 hc3 hc4 => by omega)
          have h1 := hother1 (32 * v' + u') (fun cu' hc1 hc2 => by omega)
          rw [h2.1, h1.1, upd_other _ _ _ _ hne, h2.2, h1.2]
          exact ⟨rfl, rfl⟩
        have hqmem : coveredL
            (s.events ++ [⟨d, u, v, lp, 1 + k1, 1 + k2, f.textureIndex⟩]) u v := by
          refine ⟨⟨d, u, v, lp, 1 + k1, 1 + k2, f.textureIndex⟩,
            List.mem_append_right _ (List.mem_singleton.mpr rfl), ?_⟩
          dsimp only
          omega
        refine ⟨?_, ?_, ?_, ?_⟩ <;> dsimp only
        · -- (V)
          intro u' v' hu' hv'
          by_cases hA : 32 * v' + u' = 32 * v + u
          · have huv : u' = u ∧ v' = v := by omega
            obtain ⟨rfl, rfl⟩ := huv
            rw [Forig.1, if_pos (Or.inl (by omega))]
          · by_cases hB : v' = v ∧ u + 1 ≤ u' ∧ u' < u + 1 + k1
            · obtain ⟨rfl, hb1, hb2⟩ := hB
              obtain ⟨_, _, hv3, hm3⟩ := Frow u' hb1 hb2
              rw [hv3, if_pos (Or.inr hm3)]
            · by_cases hC : v + 1 ≤ v' ∧ v' < v + 1 + k2 ∧ u ≤ u' ∧ u' < u + (1 + k1)
              · obtain ⟨hc1, hc2, hc3, hc4⟩ := hC
                obtain ⟨_, _, hv3, hm3⟩ := Frows v' u' hc1 hc2 hc3 hc4
                rw [hv3, if_pos (Or.inr hm3)]
              · obtain ⟨hvout, hmout⟩ := Fout u' v' hu' hv' hA hB hC
                rw [hvout, hmout, V u' v' hu' hv']
                refine if_congr ?_ rfl rfl
                constructor
                · rintro (h | h)
                  · exact Or.inl (by omega)
                  · exact Or.inr h
                · rintro (h | h)
                  · exact Or.inl (by omega)
                  · exact Or.inr h
        · -- (M)
          intro u' v' hu' hv' hm3
          by_cases hA : 32 * v' + u' = 32 * v + u
          · have huv : u' = u ∧ v' = v := by omega
            obtain ⟨rfl, rfl⟩ := huv
            rw [Forig.2] at hm3
            exact absurd hm3 hmer
          · by_cases hB : v' = v ∧ u + 1 ≤ u' ∧ u' < u + 1 + k1
            · obtain ⟨hbv, hb1, hb2⟩ := hB
              constructor
              · rw [hbv]
                exact (Frow u' hb1 hb2).2.1
              · refine ⟨⟨d, u, v, lp, 1 + k1, 1 + k2, f.textureIndex⟩,
                  List.mem_append_right _ (List.mem_singleton.mpr rfl), ?_⟩
                dsimp only
                omega
            · by_cases hC : v + 1 ≤ v' ∧ v' < v + 1 + k2 ∧ u ≤ u' ∧ u' < u + (1 + k1)
              · obtain ⟨hc1, hc2, hc3, hc4⟩ := hC
                refine ⟨(Frows v' u' hc1 hc2 hc3 hc4).2.1, ?_⟩
                refine ⟨⟨d, u, v, lp, 1 + k1, 1 + k2, f.textureIndex⟩,
                  List.mem_append_right _ (List.mem_singleton.mpr rfl), ?_⟩
                dsimp only
                omega
              · rw [(Fout u' v' hu' hv' hA hB hC).2] at hm3
                obtain ⟨hvin, hcov⟩ := M u' v' hu' hv' hm3
                exact ⟨hvin, coveredL_append_left _ _ _ _ hcov⟩
        · -- (C)
          intro u' v' hu' hv' hlt hface' hvin'
          by_cases hA : 32 * v' + u' = 32 * v + u
          · have huv : u' = u ∧ v' = v := by omega
            obtain ⟨rfl, rfl⟩ := huv
            exact hqmem
          · exact coveredL_append_left _ _ _ _
              (C u' v' hu' hv' (by omega) hface' hvin')
        · -- (S)
          intro q hq
          rcases List.mem_append.1 hq with hold | hnew
          · exact S q hold
          · rw [List.mem_singleton.mp hnew]
            unfold quadSoundL
            dsimp only
            refine ⟨rfl, rfl, by omega, by omega, by omega, by omega, f, rfl, ?_⟩
            intro u'' v'' h1 h2 h3 h4
            by_cases hO : v'' = v ∧ u'' = u
            · obtain ⟨hO1, hO2⟩ := hO
              rw [hO1, hO2]
              exact ⟨hface, hvinc⟩
            · by_cases hRow : v'' = v
              · have hb1 : u + 1 ≤ u'' := by omega
                rw [hRow]
                obtain ⟨hf, hvin, _, _⟩ := Frow u'' hb1 (by omega)
                exact ⟨hf, hvin⟩
              · have hc1 : v + 1 ≤ v'' := by omega
                obtain ⟨hf, hvin, _, _⟩ := Frows v'' u'' hc1 (by omega) h1 h2
                exact ⟨hf, hvin⟩
      · rw [if_pos (show (!s.visible (32 * v + u)) = true by
          cases hb : s.visible (32 * v + u) with
          | true => exact absurd hb hvisible
          | false => rfl)]
        refine ⟨hV1 s.merged (fun _ _ _ _ => rfl), M, ?_, S⟩
        intro u' v' hu' hv' hlt hface' hvin
        by_cases he : 32 * v' + u' = 32 * v + u
        · have huv : u' = u ∧ v' = v := by omega
          obtain ⟨rfl, rfl⟩ := huv
          rw [hvisc] at hvisible
          exact absurd hvin hvisible
        · exact C u' v' hu' hv' (by omega) hface' hvin

/-- `greedyCell` computes its visibility/merged updates independently of the
accumulated events, and only appends to the events. -/
theorem greedyCell_events_split (lp v u : Nat) (vis mer : LayerArr) (e : List Quad) :
    greedyCell R blocks d lp v u ⟨vis, mer, e⟩ =
      ⟨(greedyCell R blocks d lp v u ⟨vis, mer, []⟩).visible,
       (greedyCell R blocks d lp v u ⟨vis, mer, []⟩).merged,
       e ++ (greedyCell R blocks d lp v u ⟨vis, mer, []⟩).events⟩ := by
  rw [greedyCell, greedyCell]
  dsimp only
  by_cases hm : mer (32 * v + u) = true
  · rw [if_pos hm, if_pos hm]
    simp
  · rw [if_neg hm, if_neg hm]
    cases hface : R (blocks (uvec3_to_chunk_index (d.rotate ⟨u, v, lp⟩))) d with
    | none => simp
    | some f =>
      dsimp only
      by_cases hvis : vis (32 * v + u) = true
      · rw [if_neg (by rw [hvis]; simp), if_neg (by rw [hvis]; simp)]
        simp
      · rw [if_pos (show (!vis (32 * v + u)) = true by
            cases hb : vis (32 * v + u) with
            | true => exact absurd hb hvis
            | false => rfl),
          if_pos (show (!vis (32 * v + u)) = true by
            cases hb : vis (32 * v + u) with
            | true => exact absurd hb hvis
            | false => rfl)]
        simp

/-- The per-index step of one layer (row `i / 32`, column `i % 32`). -/
def layerStep (lp : Nat) (s : GreedyState) (i : Nat) : GreedyState :=
  greedyCell R blocks d lp (i / 32) (i % 32) s

theorem foldl_layerStep_events_split (lp : Nat) :
    ∀ (l : List Nat) (vis mer : LayerArr) (e : List Quad),
      l.foldl (layerStep R blocks d lp) ⟨vis, mer, e⟩ =
        ⟨(l.foldl (layerStep R blocks d lp) ⟨vis, mer, []⟩).visible,
         (l.foldl (layerStep R blocks d lp) ⟨vis, mer, []⟩).merged,
         e ++ (l.foldl (layerStep R blocks d lp) ⟨vis, mer, []⟩).events⟩ := by
  intro l
  induction l with
  | nil => intro vis mer e; simp
  | cons i t ih =>
    intro vis mer e
    rw [List.foldl_cons, List.foldl_cons]
    rw [show layerStep R blocks d lp ⟨vis, mer, e⟩ i =
        greedyCell R blocks d lp (i / 32) (i % 32) ⟨vis, mer, e⟩ from rfl,
      show layerStep R blocks d lp ⟨vis, mer, []⟩ i =
        greedyCell R blocks d lp (i / 32) (i % 32) ⟨vis, mer, []⟩ from rfl,
      greedyCell_events_split]
    rcases hc : greedyCell R blocks d lp (i / 32) (i % 32) ⟨vis, mer, []⟩ with ⟨X, Y, E1⟩
    dsimp only
    rw [ih X Y (e ++ E1), ih X Y E1]
    dsimp only
    rw [List.append_assoc]

/-- A complete run of one layer, started from a fresh merged array and no
events. -/
def layerRun (lp : Nat) (vin : LayerArr) : GreedyState :=
  (List.range 1024).foldl (layerStep R blocks d lp) ⟨vin, fun _ => false, []⟩

theorem layerInvP_init (lp : Nat) (vin : Nat → Bool) :
    layerInvP R blocks d lp vin 0 ⟨vin, fun _ => false, []⟩ := by
  refine ⟨?_, ?_, ?_, ?_⟩
  · intro u v hu hv
    rw [if_neg]
    rintro (h | h)
    · omega
    · exact absurd h (by simp)
  · intro u v hu hv h
    exact absurd h (by simp)
  · intro u v hu hv h
    omega
  · intro q hq
    exact absurd hq (by simp)

theorem layer_fold_inv (lp : Nat) (vin : Nat → Bool) :
    ∀ (n c : Nat) (s : GreedyState), c + n ≤ 1024 →
      layerInvP R blocks d lp vin c s →
      layerInvP R blocks d lp vin (c + n)
        ((List.range' c n).foldl (layerStep R blocks d lp) s) := by
  intro n
  induction n with
  | zero => intro c s h hinv; simpa using hinv
  | succ m ih =>
    intro c s h hinv
    rw [List.range'_succ, List.foldl_cons]
    have hu : c % 32 < 32 := Nat.mod_lt _ (by norm_num)
    have hv : c / 32 < 32 := by omega
    have heq : 32 * (c / 32) + c % 32 = c := by omega
    have hstep := greedyCell_step R blocks d lp vin (c % 32) (c / 32) hu hv s
      (by rw [heq]; exact hinv)
    rw [heq] at hstep
    have hres := ih (c + 1) (greedyCell R blocks d lp (c / 32) (c % 32) s)
      (by omega) hstep
    rw [show c + (m + 1) = (c + 1) + m by omega]
    exact hres

/-- Summary of one layer run: the visibility array is fully advanced to the
next layer, every emitted quad is sound, and every visible face of the layer
is covered. -/
theorem layerRun_spec (lp : Nat) (vin : LayerArr) :
    (∀ u v, u < 32 → v < 32 →
      (layerRun R blocks d lp vin).visible (32 * v + u) = oppNoneL R blocks d lp u v) ∧
    (∀ q ∈ (layerRun R blocks d lp vin).events, quadSoundL R blocks d lp vin q) ∧
    (∀ u v, u < 32 → v < 32 → (cellFaceL R blocks d lp u v).isSome = true →
      vin (32 * v + u) = true → coveredL (layerRun R blocks d lp vin).events u v) := by
  have h := layer_fold_inv R blocks d lp vin 1024 0 ⟨vin, fun _ => false, []⟩
    (by omega) (layerInvP_init R blocks d lp vin)
  rw [← List.range_eq_range'] at h
  obtain ⟨V, M, C, S⟩ := h
  refine ⟨?_, S, ?_⟩
  · intro u v hu hv
    rw [show layerRun R blocks d lp vin =
        (List.range 1024).foldl (layerStep R blocks d lp) ⟨vin, fun _ => false, []⟩ from rfl]
    rw [V u v hu hv, if_pos (Or.inl (by omega))]
  · intro u v hu hv hface hvin
    exact C u v hu hv (by omega) hface hvin

/-- The visibility array entering layer index `li`: all true for the first
layer, afterwards whether the previous (farther) layer's block has no face in
the opposite direction. -/
def greedyVin : Nat → Nat → Bool
  | 0, _ => true
  | li + 1, i => oppNoneL R blocks d (layerPos d li) (i % 32) (i / 32)

theorem quadSoundL_congr (lp : Nat) (vin1 vin2 : Nat → Bool)
    (hagree : ∀ i, i < 1024 → vin1 i = vin2 i) (q : Quad)
    (h : quadSoundL R blocks d lp vin1 q) : quadSoundL R blocks d lp vin2 q := by
  obtain ⟨h1, h2, h3, h4, h5, h6, f, h7, h8⟩ := h
  refine ⟨h1, h2, h3, h4, h5, h6, f, h7, ?_⟩
  intro u v hu1 hu2 hv1 hv2
  obtain ⟨hf, hvin⟩ := h8 u v hu1 hu2 hv1 hv2
  refine ⟨hf, ?_⟩
  rw [← hagree (32 * v + u) (by omega)]
  exact hvin

set_option maxRecDepth 4000 in
theorem layerCells_eq :
    layerCells = (List.range 1024).map (fun i => (i / 32, i % 32)) := by decide

theorem greedyLayer_eq (li : Nat) (vis : LayerArr) (evs : List Quad) :
    greedyLayer R blocks d li vis evs =
      ((layerRun R blocks d (layerPos d li) vis).visible,
       evs ++ (layerRun R blocks d (layerPos d li) vis).events) := by
  rw [greedyLayer]
  rw [layerCells_eq, List.foldl_map]
  rw [show (fun (s : GreedyState) (i : Nat) =>
      greedyCell R blocks d (layerPos d li) (i / 32, i % 32).1 (i / 32, i % 32).2 s) =
      layerStep R blocks d (layerPos d li) from rfl]
  rw [foldl_layerStep_events_split]
  rw [show (List.range 1024).foldl (layerStep R blocks d (layerPos d li))
      ⟨vis, fun _ => false, []⟩ = layerRun R blocks d (layerPos d li) vis from rfl]

/-- Soundness of a quad of `add_greedy_merged_faces`: it belongs to some
layer `li`, and is layer-sound for the entering visibility of that layer. -/
def quadSoundD (q : Quad) : Prop :=
  ∃ li, li < 32 ∧ q.layer = layerPos d li ∧
    quadSoundL R blocks d (layerPos d li) (greedyVin R blocks d li) q

/-- A visible face of layer `li` is covered by a quad of that layer. -/
def coveredD (E : List Quad) (li u v : Nat) : Prop :=
  ∃ q ∈ E, q.layer = layerPos d li ∧ q.u ≤ u ∧ u < q.u + q.w ∧ q.v ≤ v ∧ v < q.v + q.h

theorem coveredD_append_left (E E' : List Quad) (li u v : Nat)
    (h : coveredD d E li u v) : coveredD d (E ++ E') li u v := by
  obtain ⟨q, hq, hrest⟩ := h
  exact ⟨q, List.mem_append_left E' hq, hrest⟩

theorem dir_fold_spec :
    ∀ (n li0 : Nat) (vis : LayerArr) (evs : List Quad), li0 + n ≤ 32 →
    (∀ i, i < 1024 → vis i = greedyVin R blocks d li0 i) →
    (∀ q ∈ evs, quadSoundD R blocks d q) →
    (∀ li u v, li < li0 → u < 32 → v < 32 →
      (cellFaceL R blocks d (layerPos d li) u v).isSome = true →
      greedyVin R blocks d li (32 * v + u) = true → coveredD d evs li u v) →
    (∀ q ∈ ((List.range' li0 n).foldl
        (fun p li => greedyLayer R blocks d li p.1 p.2) (vis, evs)).2,
      quadSoundD R blocks d q) ∧
    (∀ li u v, li < li0 + n → u < 32 → v < 32 →
      (cellFaceL R blocks d (layerPos d li) u v).isSome = true →
      greedyVin R blocks d li (32 * v + u) = true →
      coveredD d ((List.range' li0 n).foldl
        (fun p li => greedyLayer R blocks d li p.1 p.2) (vis, evs)).2 li u v) := by
  intro n
  induction n with
  | zero =>
    intro li0 vis evs hle hagree hsound hcomplete
    exact ⟨hsound, fun li u v hli => hcomplete li u v (by omega)⟩
  | succ m ih =>
    intro li0 vis evs hle hagree hsound hcomplete
    rw [List.range'_succ, List.foldl_cons]
    dsimp only
    obtain ⟨Vrun, Srun, Crun⟩ := layerRun_spec R blocks d (layerPos d li0) vis
    have hstep : greedyLayer R blocks d li0 vis evs =
        ((layerRun R blocks d (layerPos d li0) vis).visible,
         evs ++ (layerRun R blocks d (layerPos d li0) vis).events) :=
      greedyLayer_eq R blocks d li0 vis evs
    rw [hstep]
    have hagree' : ∀ i, i < 1024 →
        (layerRun R blocks d (layerPos d li0) vis).visible i =
          greedyVin R blocks d (li0 + 1) i := by
      intro i hi
      have hu : i % 32 < 32 := Nat.mod_lt _ (by norm_num)
      have hv : i / 32 < 32 := by omega
      have heq : 32 * (i / 32) + i % 32 = i := by omega
      have := Vrun (i % 32) (i / 32) hu hv
      rw [heq] at this
      rw [this]
      rfl
    have hsound' : ∀ q ∈ evs ++ (layerRun R blocks d (layerPos d li0) vis).events,
        quadSoundD R blocks d q := by
      intro q hq
      rcases List.mem_append.1 hq with hold | hnew
      · exact hsound q hold
      · have hqs := Srun q hnew
        refine ⟨li0, by omega, hqs.2.1, ?_⟩
        exact quadSoundL_congr R blocks d (layerPos d li0) vis
          (greedyVin R blocks d li0) (fun i hi => hagree i hi) q hqs
    have hcomplete' : ∀ li u v, li < li0 + 1 → u < 32 → v < 32 →
        (cellFaceL R blocks d (layerPos d li) u v).isSome = true →
        greedyVin R blocks d li (32 * v + u) = true →
        coveredD d
          (evs ++ (layerRun R blocks d (layerPos d li0) vis).events) li u v := by
      intro li u v hli hu hv hface hvin
      by_cases hlast : li = li0
      · subst hlast
        have hvis : vis (32 * v + u) = true := by
          rw [hagree (32 * v + u) (by omega)]
          exact hvin
        obtain ⟨q, hq, hrect⟩ := Crun u v hu hv hface hvis
        have hlayer : q.layer = layerPos d li := (Srun q hq).2.1
        exact ⟨q, List.mem_append_right evs hq, hlayer, hrect⟩
      · exact coveredD_append_left d evs _ li u v
          (hcomplete li u v (by omega) hu hv hface hvin)
    have hres := ih (li0 + 1) (layerRun R blocks d (layerPos d li0) vis).visible
      (evs ++ (layerRun R blocks d (layerPos d li0) vis).events)
      (by omega) hagree' hsound' hcomplete'
    refine ⟨hres.1, ?_⟩
    intro li u v hli hu hv hface hvin
    exact hres.2 li u v (by omega) hu hv hface hvin

/-- Soundness and completeness of one direction's greedy events. -/
theorem add_greedy_spec :
    (∀ q ∈ add_greedy_merged_faces R blocks d, quadSoundD R blocks d q) ∧
    (∀ li u v, li < 32 → u < 32 → v < 32 →
      (cellFaceL R blocks d (layerPos d li) u v).isSome = true →
      greedyVin R blocks d li (32 * v + u) = true →
      coveredD d (add_greedy_merged_faces R blocks d) li u v) := by
  have h := dir_fold_spec R blocks d 32 0 (fun _ => true) [] (by omega)
    (fun i hi => rfl) (fun q hq => absurd hq (by simp))
    (fun li u v hli => absurd hli (by omega))
  rw [add_greedy_merged_faces, List.range_eq_range']
  exact ⟨h.1, fun li u v hli => h.2 li u v (by omega)⟩

/-- The entering visibility of layer `li` states exactly the culled-meshing
visibility rule: the viewer-side neighbor is outside the chunk (first layer)
or has no face in the opposite direction. -/
theorem greedyVin_iff_neighbor (li u v : Nat) (hli : li < 32) (hu : u < 32)
    (hv : v < 32) :
    greedyVin R blocks d li (32 * v + u) = true ↔
      (containsIVec3 (neighborPos (d.rotate ⟨u, v, layerPos d li⟩) d) = false ∨
       R (blocks (uvec3_to_chunk_index
         (neighborPos (d.rotate ⟨u, v, layerPos d li⟩) d).toN)) d.opposite = none) := by
  cases li with
  | zero =>
    constructor
    · intro _
      exact Or.inl (neighborPos_first d u v)
    · intro _
      rfl
  | succ j =>
    have h1 : (32 * v + u) % 32 = u := by omega
    have h2 : (32 * v + u) / 32 = v := by omega
    have hnb := neighborPos_succ d u v j hli
    have hlt := rotate_coords_lt d u v (layerPos d j) hu hv (layerPos_lt d j (by omega))
    constructor
    · intro hvin
      right
      rw [hnb, toN_ofN]
      rw [show greedyVin R blocks d (j + 1) (32 * v + u) =
          oppNoneL R blocks d (layerPos d j) ((32 * v + u) % 32) ((32 * v + u) / 32)
          from rfl, h1, h2] at hvin
      rw [oppNoneL, Option.isNone_iff_eq_none] at hvin
      exact hvin
    · intro hcond
      rw [show greedyVin R blocks d (j + 1) (32 * v + u) =
          oppNoneL R blocks d (layerPos d j) ((32 * v + u) % 32) ((32 * v + u) / 32)
          from rfl, h1, h2, oppNoneL, Option.isNone_iff_eq_none]
      rcases hcond with hout | hnone
      · rw [hnb, containsIVec3_ofN _ hlt.1 hlt.2.1 hlt.2.2] at hout
        exact absurd hout (by simp)
      · rw [hnb, toN_ofN] at hnone
        exact hnone

end GreedyAnalysis

/-- The inverse coordinate swizzle of `Dir.rotate`. -/
def Dir.unrotate (d : Dir) (v : NVec3) : NVec3 :=
  match d with
  | .posX => ⟨v.z, v.y, v.x⟩
  | .negX => ⟨v.z, v.y, v.x⟩
  | .posY => ⟨v.z, v.x, v.y⟩
  | .negY => ⟨v.z, v.x, v.y⟩
  | .posZ => v
  | .negZ => v

theorem rotate_unrotate (d : Dir) (p : NVec3) : d.rotate (d.unrotate p) = p := by
  cases d <;> rfl

theorem unrotate_coords_lt (d : Dir) (p : NVec3) (hx : p.x < 32) (hy : p.y < 32)
    (hz : p.z < 32) : (d.unrotate p).x < 32 ∧ (d.unrotate p).y < 32 ∧
      (d.unrotate p).z < 32 := by
  cases d <;> exact ⟨by simpa [Dir.unrotate], by simpa [Dir.unrotate],
    by simpa [Dir.unrotate]⟩

theorem layerPos_inj (d : Dir) (i j : Nat) (hi : i < 32) (hj : j < 32)
    (h : layerPos d i = layerPos d j) : i = j := by
  cases d <;> simp [layerPos, Dir.negative] at h <;> omega

/-- The unit cells a quad covers, each as an absolute chunk coordinate. -/
def coveredCells (q : Quad) : List NVec3 :=
  (List.range q.w).flatMap fun i =>
    (List.range q.h).map fun j => q.dir.rotate ⟨q.u + i, q.v + j, q.layer⟩

theorem coveredCells_mem (q : Quad) (p : NVec3) :
    p ∈ coveredCells q ↔ ∃ i j, i < q.w ∧ j < q.h ∧
      p = q.dir.rotate ⟨q.u + i, q.v + j, q.layer⟩ := by
  simp only [coveredCells, List.mem_flatMap, List.mem_map, List.mem_range]
  constructor
  · rintro ⟨i, hi, j, hj, hp⟩
    exact ⟨i, j, hi, hj, hp.symm⟩
  · rintro ⟨i, j, hi, hj, hp⟩
    exact ⟨i, hi, j, hj, hp.symm⟩

/-- The C3 per-quad property: the quad is within bounds and every cell it
covers carries the quad's single shared face descriptor and satisfies the
culled-meshing visibility rule. -/
def greedyQuadOK (R : Registry) (blocks : Blocks) (q : Quad) : Prop :=
  1 ≤ q.w ∧ 1 ≤ q.h ∧ q.u + q.w ≤ 32 ∧ q.v + q.h ≤ 32 ∧ q.layer < 32 ∧
  ∃ f : BlockFace, q.texture = f.textureIndex ∧
    (coveredCells q).Forall (fun p =>
      faceAt R blocks p q.dir = some f ∧
      (containsIVec3 (neighborPos p q.dir) = false ∨
       R (blocks (uvec3_to_chunk_index (neighborPos p q.dir).toN)) q.dir.opposite = none))

theorem greedyEvents_sound (R : Registry) (blocks : Blocks) (q : Quad)
    (hq : q ∈ greedyEvents R blocks) : greedyQuadOK R blocks q := by
  rw [greedyEvents, List.mem_flatMap] at hq
  obtain ⟨d, _, hq⟩ := hq
  obtain ⟨li, hli, hlayer, hdir, hlp, hw, hh, hu32, hv32, f, htex, hcells⟩ :=
    (add_greedy_spec R blocks d).1 q hq
  refine ⟨hw, hh, hu32, hv32, by rw [hlayer]; exact layerPos_lt d li hli, f, htex, ?_⟩
  rw [List.forall_iff_forall_mem]
  intro p hp
  obtain ⟨i, j, hi, hj, hpe⟩ := (coveredCells_mem q p).1 hp
  have hcell := hcells (q.u + i) (q.v + j) (by omega) (by omega) (by omega) (by omega)
  have hu' : q.u + i < 32 := by omega
  have hv' : q.v + j < 32 := by omega
  have hnbr := (greedyVin_iff_neighbor R blocks d li (q.u + i) (q.v + j)
    hli hu' hv').1 hcell.2
  subst hpe
  rw [hdir, hlayer]
  exact ⟨hcell.1, hnbr⟩

/-- C3: for every block array, every quad emitted by `mesh_greedy` covers
only voxels whose face descriptors in the quad's direction are all present
and identical (a single shared `BlockFace`, hence the same texture index),
and covers no voxel that is occluded under the culled-meshing visibility
rule: every covered voxel's viewer-side neighbor lies outside the chunk or
has no face in the opposite direction.
spec-modelled: the block registry is modelled from the spec (§6). -/
theorem c3_greedy_merge_soundness (R : Registry) (blocks : Blocks) :
    (greedyEvents R blocks).Forall (greedyQuadOK R blocks) := by
  rw [List.forall_iff_forall_mem]
  intro q hq
  exact greedyEvents_sound R blocks q hq

/-- The visible-face predicate on a single voxel `p` and direction `d0`: the
voxel is in bounds, its block model has a face in direction `d0` with the
given texture index, and the viewer-side neighbor lies outside the chunk or
has no face in the opposite direction. -/
def faceCellPred (R : Registry) (blocks : Blocks) (p : NVec3) (d0 : Dir)
    (tex : Nat) : Prop :=
  p.x < 32 ∧ p.y < 32 ∧ p.z < 32 ∧
  (∃ f, faceAt R blocks p d0 = some f ∧ tex = f.textureIndex) ∧
  (containsIVec3 (neighborPos p d0) = false ∨
   R (blocks (uvec3_to_chunk_index (neighborPos p d0).toN)) d0.opposite = none)

/-- Some quad of `E` with direction `d0` and texture `tex` covers voxel `p`. -/
def meshCovers (E : List Quad) (p : NVec3) (d0 : Dir) (tex : Nat) : Prop :=
  ∃ q, q ∈ E ∧ q.dir = d0 ∧ q.texture = tex ∧ p ∈ coveredCells q

theorem culled_covers_iff (R : Registry) (blocks : Blocks) (p : NVec3)
    (d0 : Dir) (tex : Nat) :
    meshCovers (culledEvents R blocks) p d0 tex ↔ faceCellPred R blocks p d0 tex := by
  constructor
  · rintro ⟨q, hq, hdir, htex, hp⟩
    obtain ⟨hw, hh, hu, hv, hl, ⟨f, hface, hqtex⟩, hnbr⟩ := (culledEvents_mem R blocks q).1 hq
    obtain ⟨i, j, hi, hj, hpe⟩ := (coveredCells_mem q p).1 hp
    have hij : i = 0 ∧ j = 0 := by omega
    obtain ⟨rfl, rfl⟩ := hij
    have hpq : p = q.pos := by
      rw [hpe, Quad.pos, Nat.add_zero, Nat.add_zero]
    subst hpq
    subst hdir
    have hco := rotate_coords_lt q.dir q.u q.v q.layer hu hv hl
    exact ⟨hco.1, hco.2.1, hco.2.2, ⟨f, hface, htex ▸ hqtex⟩, hnbr⟩
  · rintro ⟨hx, hy, hz, ⟨f, hface, htex⟩, hnbr⟩
    have hput : d0.rotate ⟨(d0.unrotate p).x, (d0.unrotate p).y, (d0.unrotate p).z⟩ = p := by
      rw [show (⟨(d0.unrotate p).x, (d0.unrotate p).y, (d0.unrotate p).z⟩ : NVec3) =
        d0.unrotate p from rfl, rotate_unrotate]
    obtain ⟨hux, huy, huz⟩ := unrotate_coords_lt d0 p hx hy hz
    refine ⟨⟨d0, (d0.unrotate p).x, (d0.unrotate p).y, (d0.unrotate p).z, 1, 1, tex⟩,
      (culledEvents_mem R blocks _).2 ?_, rfl, rfl, ?_⟩
    · refine ⟨rfl, rfl, hux, huy, huz, ⟨f, ?_, htex⟩, ?_⟩
      · rw [show Quad.pos ⟨d0, (d0.unrotate p).x, (d0.unrotate p).y,
            (d0.unrotate p).z, 1, 1, tex⟩ =
          d0.rotate ⟨(d0.unrotate p).x, (d0.unrotate p).y, (d0.unrotate p).z⟩ from rfl,
          hput]
        exact hface
      · rw [show Quad.pos ⟨d0, (d0.unrotate p).x, (d0.unrotate p).y,
            (d0.unrotate p).z, 1, 1, tex⟩ =
          d0.rotate ⟨(d0.unrotate p).x, (d0.unrotate p).y, (d0.unrotate p).z⟩ from rfl,
          hput]
        exact hnbr
    · rw [coveredCells_mem]
      exact ⟨0, 0, Nat.zero_lt_one, Nat.zero_lt_one, hput.symm⟩

theorem greedy_covers_iff (R : Registry) (blocks : Blocks) (p : NVec3)
    (d0 : Dir) (tex : Nat) :
    meshCovers (greedyEvents R blocks) p d0 tex ↔ faceCellPred R blocks p d0 tex := by
  constructor
  · rintro ⟨q, hq, hdir, htex, hp⟩
    obtain ⟨hw, hh, hu32, hv32, hl32, f, hqtex, hcells⟩ := greedyEvents_sound R blocks q hq
    rw [List.forall_iff_forall_mem] at hcells
    obtain ⟨hface, hnbr⟩ := hcells p hp
    obtain ⟨i, j, hi, hj, hpe⟩ := (coveredCells_mem q p).1 hp
    have hco := rotate_coords_lt q.dir (q.u + i) (q.v + j) q.layer
      (by omega) (by omega) hl32
    rw [← hpe] at hco
    rw [hdir] at hface hnbr
    exact ⟨hco.1, hco.2.1, hco.2.2, ⟨f, hface, htex ▸ hqtex⟩, hnbr⟩
  · rintro ⟨hx, hy, hz, ⟨f, hface, htex⟩, hnbr⟩
    have hput : d0.rotate ⟨(d0.unrotate p).x, (d0.unrotate p).y, (d0.unrotate p).z⟩ = p := by
      rw [show (⟨(d0.unrotate p).x, (d0.unrotate p).y, (d0.unrotate p).z⟩ : NVec3) =
        d0.unrotate p from rfl, rotate_unrotate]
    obtain ⟨hux, huy, huz⟩ := unrotate_coords_lt d0 p hx hy hz
    obtain ⟨hlp, hli⟩ := layerPos_layerInv d0 (d0.unrotate p).z huz
    have hfaceL : cellFaceL R blocks d0 (layerPos d0 (layerInv d0 (d0.unrotate p).z))
        (d0.unrotate p).x (d0.unrotate p).y = some f := by
      rw [hlp]
      show R (blocks (uvec3_to_chunk_index (d0.rotate ⟨(d0.unrotate p).x,
        (d0.unrotate p).y, (d0.unrotate p).z⟩))) d0 = some f
      rw [hput]
      exact hface
    have hvin : greedyVin R blocks d0 (layerInv d0 (d0.unrotate p).z)
        (32 * (d0.unrotate p).y + (d0.unrotate p).x) = true := by
      rw [greedyVin_iff_neighbor R blocks d0 _ _ _ hli hux huy, hlp, hput]
      exact hnbr
    obtain ⟨q, hq, hqlayer, hr1, hr2, hr3, hr4⟩ :=
      (add_greedy_spec R blocks d0).2 (layerInv d0 (d0.unrotate p).z)
        (d0.unrotate p).x (d0.unrotate p).y hli hux huy
        (by rw [hfaceL]; rfl) hvin
    obtain ⟨li2, hli2, hqlayer2, hdir2, _, _, _, hu32, hv32, f2, hqtex2, hcells2⟩ :=
      (add_greedy_spec R blocks d0).1 q hq
    have hlieq : li2 = layerInv d0 (d0.unrotate p).z :=
      layerPos_inj d0 li2 _ hli2 hli (by rw [← hqlayer2, hqlayer])
    subst hlieq
    have hcell := hcells2 (d0.unrotate p).x (d0.unrotate p).y hr1 hr2 hr3 hr4
    have hf2 : f2 = f := by
      have := hcell.1
      rw [hfaceL] at this
      exact (Option.some.inj this).symm
    refine ⟨q, ?_, hdir2, by rw [hqtex2, hf2, htex], ?_⟩
    · rw [greedyEvents, List.mem_flatMap]
      exact ⟨d0, mem_dirOrder d0, hq⟩
    · rw [coveredCells_mem]
      refine ⟨(d0.unrotate p).x - q.u, (d0.unrotate p).y - q.v, by omega, by omega, ?_⟩
      have he1 : q.u + ((d0.unrotate p).x - q.u) = (d0.unrotate p).x := by omega
      have he2 : q.v + ((d0.unrotate p).y - q.v) = (d0.unrotate p).y := by omega
      rw [he1, he2, hdir2, hqlayer, hlp, hput]

/-- C1: for every block array (and translation — the translation plays no
role in which cells are covered), `mesh_culled` and `mesh_greedy` cover the
identical visible surface: decomposing each quad of both outputs into unit
cells and comparing the (voxel position, face direction, texture index)
triples yields exactly the same set, even though `mesh_greedy` emits fewer,
larger quads.
spec-modelled: the block registry is modelled from the spec (§6). -/
theorem c1_culled_greedy_equivalence (R : Registry) (blocks : Blocks)
    (p : NVec3) (d0 : Dir) (tex : Nat) :
    meshCovers (culledEvents R blocks) p d0 tex ↔
      meshCovers (greedyEvents R blocks) p d0 tex :=
  (culled_covers_iff R blocks p d0 tex).trans
    (greedy_covers_iff R blocks p d0 tex).symm

end Voxel
